import Mathlib

/-!
Verification of the `my-redis` server: a shallow embedding of its frame
codec, command parsing, shared store, accept-loop backoff and handler
loop, with theorems settling the specification claims.

Conventions of the embedding:
* Rust byte buffers are `List Nat` with entries `< 256`; a cursor over a
  buffer is represented by the not-yet-consumed suffix (every cursor
  operation of `frame.rs` reads only the suffix after the position, so
  this is an exact representation; "the cursor ends at position p" is
  rendered as "the remaining suffix is the one starting at p").
* Rust `u64`/`usize` values are `Nat` with explicit `< 2 ^ 64` bounds
  and `% 2 ^ 64` where the source can overflow: at `as u64` casts and at
  the `len + 2` additions of `frame.rs`, which wrap in a release build
  (a debug build panics at the addition; the wrapping semantics is the
  one embedded, and the slice-index panic it makes reachable in
  `Frame::parse` is the explicit error `outOfBounds`).
* `Instant` and `Duration` are `Nat` (an abstract clock in milliseconds);
  `Instant::now() + duration` is `now + d` where `now` is passed in
  explicitly at each call, mirroring the single `Instant::now()` read.
* fallible Rust functions return `Except`; `unreachable!` branches are
  the distinguished error `unreachableHit` so a "panic" is observable.
* recursion of `Frame::check` / `Frame::parse` over raw bytes is
  fuel-indexed (the source recursion terminates because every frame
  consumes at least one byte; the fuel is instantiated with the buffer
  length plus one, which the theorems show is always sufficient).
-/

namespace MyRedis

/-- Byte strings: contents of `Bytes`, `&[u8]`, `String` on the Rust side. -/
abbrev ByteStr := List Nat

/-- Byte constant: carriage return. -/
def CR : Nat := 13

/-- Byte constant: line feed. -/
def LF : Nat := 10

/-!  ## UTF-8 validity (`std::str::from_utf8` / `String::from_utf8`)  -/

/-- Continuation byte test for UTF-8 (`0x80..=0xBF`). -/
def isCont (b : Nat) : Bool := 128 ≤ b && b ≤ 191

/-- Standard UTF-8 validity of a byte sequence, as checked by Rust's
`str::from_utf8` (including surrogate and overlong rejection). -/
def validUtf8 : List Nat → Bool
  | [] => true
  | b :: r =>
    if b ≤ 127 then validUtf8 r
    else if 194 ≤ b && b ≤ 223 then
      match r with
      | c :: r2 => isCont c && validUtf8 r2
      | [] => false
    else if b = 224 then
      match r with
      | c :: c2 :: r2 => (160 ≤ c && c ≤ 191) && isCont c2 && validUtf8 r2
      | _ => false
    else if (225 ≤ b && b ≤ 236) || b = 238 || b = 239 then
      match r with
      | c :: c2 :: r2 => isCont c && isCont c2 && validUtf8 r2
      | _ => false
    else if b = 237 then
      match r with
      | c :: c2 :: r2 => (128 ≤ c && c ≤ 159) && isCont c2 && validUtf8 r2
      | _ => false
    else if b = 240 then
      match r with
      | c :: c2 :: c3 :: r2 =>
          (144 ≤ c && c ≤ 191) && isCont c2 && isCont c3 && validUtf8 r2
      | _ => false
    else if 241 ≤ b && b ≤ 243 then
      match r with
      | c :: c2 :: c3 :: r2 => isCont c && isCont c2 && isCont c3 && validUtf8 r2
      | _ => false
    else if b = 244 then
      match r with
      | c :: c2 :: c3 :: r2 =>
          (128 ≤ c && c ≤ 143) && isCont c2 && isCont c3 && validUtf8 r2
      | _ => false
    else false

/-!  ## Decimal text (`str::parse::<u64>` and `write_decimal`)  -/

/-- ASCII digit test. -/
def isDigit (b : Nat) : Bool := 48 ≤ b && b ≤ 57

/-- `str::parse::<u64>` on the bytes of a string: an optional leading `+`,
then one or more ASCII digits, value below `2 ^ 64`.  Non-UTF-8 input is
never numeric, so the preceding `from_utf8` checks in the source cannot
change the success set; their error is folded into the same failure. -/
def parseU64 (bs : List Nat) : Option Nat :=
  let ds := if bs.head? = some 43 then bs.tail else bs
  if ds = [] then none
  else if ds.all isDigit then
    let v := ds.foldl (fun acc b => acc * 10 + (b - 48)) 0
    if v < 2 ^ 64 then some v else none
  else none

/-- Base-10 digits of `n`, least significant first, with explicit fuel
(any fuel of at least `n` is exact). -/
def natDigitsRev : Nat → Nat → List Nat
  | 0, _ => []
  | fuel + 1, n => if n = 0 then [] else n % 10 :: natDigitsRev fuel (n / 10)

/-- Decimal digits of `n`, most significant first, as ASCII bytes: the
output of `write!(buf, "{}", val)` in `Connection::write_decimal`. -/
def decBytes (n : Nat) : List Nat :=
  if n = 0 then [48] else ((natDigitsRev n n).map (fun d => d + 48)).reverse

/-!  ## Frame values (`frame.rs`)  -/

/-- The six RESP frame variants of `frame.rs`.  String payloads are kept
as their UTF-8 bytes; `integer` carries a `u64` value. -/
inductive Frame where
  | simple (s : ByteStr)
  | error (s : ByteStr)
  | integer (n : Nat)
  | bulk (b : ByteStr)
  | array (xs : List Frame)
  | null
deriving Repr

/-- Outcomes of the byte-level frame functions: `Incomplete`, any other
`frame::Error` (protocol error), the `unreachable!()` branch of
`Frame::parse`, the slice-index panic of `Frame::parse`'s Bulk arm
(`&src.chunk()[0..len]` with `len` beyond the buffer, reachable when
`len + 2` wraps around `usize`), and exhaustion of the termination fuel
(shown unreachable for the fuel used by `Frame.check` / `Frame.parse`). -/
inductive FErr where
  | incomplete
  | other
  | unreachableHit
  | outOfBounds
  | nofuel
deriving Repr, DecidableEq

/-- `get_u8`: pop one byte or fail `Incomplete`. -/
def getU8 : List Nat → Except FErr (Nat × List Nat)
  | [] => .error .incomplete
  | b :: r => .ok (b, r)

/-- `skip(n)`: fail `Incomplete` when fewer than `n` bytes remain,
otherwise drop `n` bytes. -/
def skip (n : Nat) (d : List Nat) : Except FErr (List Nat) :=
  if d.length < n then .error .incomplete else .ok (d.drop n)

/-- `get_line`: bytes before the first CRLF, and the suffix after it;
`Incomplete` when no CRLF occurs. -/
def getLine : List Nat → Except FErr (List Nat × List Nat)
  | [] => .error .incomplete
  | b :: r =>
    if b = 13 ∧ r.head? = some 10 then .ok ([], r.tail)
    else (getLine r).map (fun p => (b :: p.1, p.2))

/-- `get_decimal`: a line that parses as `u64`; any malformed line is the
protocol error `不合法的帧格式`. -/
def getDecimal (d : List Nat) : Except FErr (Nat × List Nat) := do
  let (line, r) ← getLine d
  match parseU64 line with
  | some v => .ok (v, r)
  | none => .error .other

/-- The element loop of `Frame::check` on an `Array` of `n` elements,
with `chk` the recursive occurrence of `Frame::check` one level down. -/
def checkListStep (chk : List Nat → Except FErr (List Nat)) :
    Nat → List Nat → Except FErr (List Nat)
  | 0, d => .ok d
  | n + 1, d =>
    match chk d with
    | .ok d' => checkListStep chk n d'
    | .error e => .error e

/-- The body of `Frame::check`, with `chk` its recursive occurrence.
Tag bytes: `+` 43, `-` 45, `:` 58, `$` 36, `*` 42, `_` 95.  In the `$`
arm the source computes `len + 2` in `usize`; the embedding takes the
release-build (two's-complement wrapping) semantics, `(n + 2) % 2 ^ 64`
(a debug build would already panic at the addition for
`len ≥ 2 ^ 64 - 2`). -/
def checkStep (chk : List Nat → Except FErr (List Nat))
    (d : List Nat) : Except FErr (List Nat) := do
  let (b, d) ← getU8 d
  if b = 43 then do
    let (_, d) ← getLine d
    .ok d
  else if b = 45 then do
    let (_, d) ← getLine d
    .ok d
  else if b = 58 then do
    let (_, d) ← getDecimal d
    .ok d
  else if b = 36 then do
    let (n, d) ← getDecimal d
    skip ((n + 2) % 2 ^ 64) d
  else if b = 42 then do
    let (n, d) ← getDecimal d
    checkListStep chk n d
  else if b = 95 then do
    let (_, d) ← getLine d
    .ok d
  else .error .other

/-- `Frame::check` with explicit fuel bounding the nesting depth. -/
def checkFuel : Nat → List Nat → Except FErr (List Nat)
  | 0, _ => .error .nofuel
  | fuel + 1, d => checkStep (checkFuel fuel) d

/-- The element loop of `Frame::parse` on an `Array` of `n` elements,
collecting the elements in order; `prs` is the recursive occurrence of
`Frame::parse` one level down. -/
def parseListStep (prs : List Nat → Except FErr (Frame × List Nat)) :
    Nat → List Nat → Except FErr (List Frame × List Nat)
  | 0, d => .ok ([], d)
  | n + 1, d => do
    let (f, d') ← prs d
    let (fs, d'') ← parseListStep prs n d'
    .ok (f :: fs, d'')

/-- The body of `Frame::parse`, with `prs` its recursive occurrence.
Differs from `check` exactly as the source does: `+`/`-` require UTF-8
text, `$` checks `remaining < len + 2` itself (with `len + 2` wrapping
around `usize` as in `check`) and then slices `chunk()[0..len]` — a
panic, `outOfBounds`, when `len` exceeds the remaining buffer, which is
reachable exactly when `len + 2` wrapped — `_` requires an empty line,
and the catch-all arm is `unreachable!()`. -/
def parseStep (prs : List Nat → Except FErr (Frame × List Nat))
    (d : List Nat) : Except FErr (Frame × List Nat) := do
  let (b, d) ← getU8 d
  if b = 43 then do
    let (line, d) ← getLine d
    if validUtf8 line then .ok (.simple line, d) else .error .other
  else if b = 45 then do
    let (line, d) ← getLine d
    if validUtf8 line then .ok (.error line, d) else .error .other
  else if b = 58 then do
    let (n, d) ← getDecimal d
    .ok (.integer n, d)
  else if b = 36 then do
    let (n, d) ← getDecimal d
    if d.length < (n + 2) % 2 ^ 64 then .error .incomplete
    else if d.length < n then .error .outOfBounds
    else do
      let d2 ← skip ((n + 2) % 2 ^ 64) d
      .ok (.bulk (d.take n), d2)
  else if b = 42 then do
    let (n, d) ← getDecimal d
    let (fs, d') ← parseListStep prs n d
    .ok (.array fs, d')
  else if b = 95 then do
    let (line, d) ← getLine d
    if line = [] then .ok (.null, d) else .error .other
  else .error .unreachableHit

/-- `Frame::parse` with explicit fuel bounding the nesting depth. -/
def parseFuel : Nat → List Nat → Except FErr (Frame × List Nat)
  | 0, _ => .error .nofuel
  | fuel + 1, d => parseStep (parseFuel fuel) d

/-- `Frame::check` run on a buffer (fuel `length + 1`, always enough). -/
def Frame.check (d : List Nat) : Except FErr (List Nat) :=
  checkFuel (d.length + 1) d

/-- `Frame::parse` run on a buffer (fuel `length + 1`, always enough). -/
def Frame.parse (d : List Nat) : Except FErr (Frame × List Nat) :=
  parseFuel (d.length + 1) d

/-!  ## Frame encoding (`Connection::write_frame` / `write_value`)  -/

/-- `Connection::write_value`: bytes written for one non-array frame;
`none` models the `unreachable!()` panic on a nested `Array`. -/
def encValue : Frame → Option (List Nat)
  | .simple s => some (43 :: (s ++ [13, 10]))
  | .error s => some (45 :: (s ++ [13, 10]))
  | .integer n => some (58 :: (decBytes n ++ [13, 10]))
  | .null => some [95, 13, 10]
  | .bulk b => some (36 :: (decBytes (b.length % 2 ^ 64) ++ [13, 10] ++ b ++ [13, 10]))
  | .array _ => none

/-- The element loop of `Connection::write_frame` over an `Array`: the
concatenated bytes of `write_value` on each element, or `none` as soon
as one element panics. -/
def encValues : List Frame → Option (List Nat)
  | [] => some []
  | f :: fs => do
    let b ← encValue f
    let rest ← encValues fs
    some (b ++ rest)

/-- `Connection::write_frame`: an `Array` writes `*`, its length, then
each element through `write_value`; other frames go straight to
`write_value`.  `none` models a panic while writing. -/
def encFrame : Frame → Option (List Nat)
  | .array xs =>
    (encValues xs).map
      (fun es => 42 :: (decBytes (xs.length % 2 ^ 64) ++ [13, 10] ++ es))
  | f => encValue f

/-- The byte stream of a sequence of frames, each written by
`Connection::write_frame` (one `write_frame` call per frame). -/
def encFrames : List Frame → Option (List Nat)
  | [] => some []
  | f :: fs => do
    let b ← encFrame f
    let rest ← encFrames fs
    some (b ++ rest)

/-!  ## The `Parse` helper (`parse.rs`)

The `Parse` struct is an iterator over the elements of an `Array` frame;
it is embedded as the list of not-yet-consumed elements.  -/

/-- `ParseError`: only `EndOfStream` is handled at runtime, every other
error closes the connection. -/
inductive PErr where
  | endOfStream
  | other
deriving Repr, DecidableEq

/-- `Parse::next_string`: next element as text; accepts `Simple`, and
`Bulk` when its bytes are UTF-8. -/
def nextString : List Frame → Except PErr (ByteStr × List Frame)
  | [] => .error .endOfStream
  | .simple s :: r => .ok (s, r)
  | .bulk d :: r => if validUtf8 d then .ok (d, r) else .error .other
  | _ :: _ => .error .other

/-- `Parse::next_bytes`: next element as raw bytes; accepts `Simple` and
`Bulk`. -/
def nextBytes : List Frame → Except PErr (ByteStr × List Frame)
  | [] => .error .endOfStream
  | .simple s :: r => .ok (s, r)
  | .bulk d :: r => .ok (d, r)
  | _ :: _ => .error .other

/-- `Parse::next_int`: next element as `u64`; accepts `Integer`, and
`Simple`/`Bulk` whose text parses as an unsigned decimal. -/
def nextInt : List Frame → Except PErr (Nat × List Frame)
  | [] => .error .endOfStream
  | .integer v :: r => .ok (v, r)
  | .simple s :: r =>
    match parseU64 s with
    | some v => .ok (v, r)
    | none => .error .other
  | .bulk d :: r =>
    if validUtf8 d then
      match parseU64 d with
      | some v => .ok (v, r)
      | none => .error .other
    else .error .other
  | _ :: _ => .error .other

/-- `Parse::finish`: succeeds iff every element has been consumed. -/
def finish : List Frame → Except PErr Unit
  | [] => .ok ()
  | _ :: _ => .error .other

/-!  ## Commands (`cmd/mod.rs` and the per-command parsers)  -/

/-- The `Command` enum.  `set`'s `expire` is the parsed TTL in
milliseconds (`Duration::from_millis`). -/
inductive Command where
  | get (key : ByteStr)
  | set (key : ByteStr) (value : ByteStr) (expire : Option Nat)
  | publish (channel : ByteStr) (message : ByteStr)
  | subscribe (channels : List ByteStr)
  | ping (msg : Option ByteStr)
  | unknown (name : ByteStr)
deriving Repr

/-- ASCII lowercasing of one byte, used to embed
`String::to_lowercase` for the ASCII command names compared against. -/
def lowerByte (b : Nat) : Nat := if 65 ≤ b && b ≤ 90 then b + 32 else b

/-- `to_lowercase` on the bytes of a string (exact on ASCII input; every
command-name comparison in the source is against a pure-ASCII literal). -/
def lowerAscii (s : ByteStr) : ByteStr := s.map lowerByte

/-- Bytes of `"get"`. -/
def nmGet : ByteStr := [103, 101, 116]

/-- Bytes of `"set"`. -/
def nmSet : ByteStr := [115, 101, 116]

/-- Bytes of `"publish"`. -/
def nmPublish : ByteStr := [112, 117, 98, 108, 105, 115, 104]

/-- Bytes of `"subscribe"`. -/
def nmSubscribe : ByteStr := [115, 117, 98, 115, 99, 114, 105, 98, 101]

/-- Bytes of `"ping"`. -/
def nmPing : ByteStr := [112, 105, 110, 103]

/-- `Get::parse_frame`: the key, as a string. -/
def getParse (ps : List Frame) : Except PErr (Command × List Frame) := do
  let (key, ps) ← nextString ps
  .ok (.get key, ps)

/-- `Set::parse_frame`: key, value, then an optional expiration: a first
`next_string` whose value is discarded (the permissive option marker),
then `next_int` milliseconds; `EndOfStream` on the marker means no
expiration, and any other error propagates. -/
def setParse (ps : List Frame) : Except PErr (Command × List Frame) := do
  let (key, ps) ← nextString ps
  let (value, ps) ← nextBytes ps
  match nextString ps with
  | .ok (_, ps2) => do
    let (ms, ps3) ← nextInt ps2
    .ok (.set key value (some ms), ps3)
  | .error .endOfStream => .ok (.set key value none, ps)
  | .error e => .error e

/-- `Publish::parse_frames`: channel then message. -/
def publishParse (ps : List Frame) : Except PErr (Command × List Frame) := do
  let (channel, ps) ← nextString ps
  let (message, ps) ← nextBytes ps
  .ok (.publish channel message, ps)

/-- The channel loop of `Subscribe::parse_frames`: strings until
`EndOfStream`. -/
def subChans : List Frame → Except PErr (List ByteStr)
  | [] => .ok []
  | .simple s :: r => (subChans r).map (fun cs => s :: cs)
  | .bulk d :: r =>
    if validUtf8 d then (subChans r).map (fun cs => d :: cs) else .error .other
  | _ :: _ => .error .other

/-- `Subscribe::parse_frames`: one mandatory channel, then the rest. -/
def subscribeParse (ps : List Frame) : Except PErr (Command × List Frame) := do
  let (c1, ps) ← nextString ps
  let cs ← subChans ps
  .ok (.subscribe (c1 :: cs), [])

/-- `Ping::parse_frames`: an optional message (`EndOfStream` means none). -/
def pingParse (ps : List Frame) : Except PErr (Command × List Frame) :=
  match nextBytes ps with
  | .ok (m, ps') => .ok (.ping (some m), ps')
  | .error .endOfStream => .ok (.ping none, ps)
  | .error e => .error e

/-- `Command::from_frame`: require an `Array`, read the lowercased command
name, dispatch, and `finish`; an unrecognised name becomes `Unknown`
immediately, skipping `finish`. -/
def fromFrame (f : Frame) : Except PErr Command := do
  let ps ← (match f with
    | .array xs => Except.ok xs
    | _ => .error PErr.other)
  let (name, ps) ← nextString ps
  let lname := lowerAscii name
  if lname = nmGet then do
    let (c, ps) ← getParse ps
    let _ ← finish ps
    .ok c
  else if lname = nmSet then do
    let (c, ps) ← setParse ps
    let _ ← finish ps
    .ok c
  else if lname = nmPublish then do
    let (c, ps) ← publishParse ps
    let _ ← finish ps
    .ok c
  else if lname = nmSubscribe then do
    let (c, ps) ← subscribeParse ps
    let _ ← finish ps
    .ok c
  else if lname = nmPing then do
    let (c, ps) ← pingParse ps
    let _ ← finish ps
    .ok c
  else .ok (.unknown lname)

/-- The client-side `into_frame` of each constructible command (`Unknown`
has none in the source, hence `none`).  `Set` pushes key and value as
`Bulk` and, when an expiration is present, `expire.as_millis() as u64`
as a bare `Integer` — with no option marker. -/
def intoFrame : Command → Option Frame
  | .get k => some (.array [.bulk nmGet, .bulk k])
  | .set k v none => some (.array [.bulk nmSet, .bulk k, .bulk v])
  | .set k v (some ms) =>
    some (.array [.bulk nmSet, .bulk k, .bulk v, .integer (ms % 2 ^ 64)])
  | .publish c m => some (.array [.bulk nmPublish, .bulk c, .bulk m])
  | .subscribe cs => some (.array (.bulk nmSubscribe :: cs.map .bulk))
  | .ping none => some (.array [.bulk nmPing])
  | .ping (some m) => some (.array [.bulk nmPing, .bulk m])
  | .unknown _ => none

/-!  ## The shared store (`db.rs`)

`State` is embedded with `entries` and `pub_sub` as extensional maps
(`HashMap` lookup), and `expirations` as the list of members of the
`BTreeSet<(Instant, String)>`; set insertion/removal and iteration-order
minimum are made explicit below.  The broadcast sender of a channel is
abstracted to its receiver count (only creation and the count reported by
`publish` are observable to the store; receivers dropped by ending
sessions are outside this sequential model). -/

/-- An `Entry` of the key/value map. -/
structure Entry where
  data : ByteStr
  expires_at : Option Nat
deriving Repr, DecidableEq

/-- The mutex-guarded `State` of `db.rs`. -/
structure DbState where
  entries : ByteStr → Option Entry
  expirations : List (Nat × ByteStr)
  pub_sub : ByteStr → Option Nat
  shutdown : Bool

/-- The empty store created by `Db::new`. -/
def db0 : DbState :=
  { entries := fun _ => none
    expirations := []
    pub_sub := fun _ => none
    shutdown := false }

/-- Byte-wise lexicographic strict order on strings (`Ord` on `String`). -/
def bytesLt : ByteStr → ByteStr → Bool
  | [], [] => false
  | [], _ :: _ => true
  | _ :: _, [] => false
  | a :: xs, b :: ys => if a < b then true else if a = b then bytesLt xs ys else false

/-- Lexicographic strict order on `(Instant, String)` pairs — the
`BTreeSet` ordering (instant ascending, ties by byte-wise key order). -/
def pairLt (p q : Nat × ByteStr) : Bool :=
  p.1 < q.1 || (p.1 = q.1 && bytesLt p.2 q.2)

/-- First element of `expirations.iter()`: the least pair of the set. -/
def minPair : List (Nat × ByteStr) → Option (Nat × ByteStr)
  | [] => none
  | p :: r =>
    match minPair r with
    | none => some p
    | some q => some (if pairLt q p then q else p)

/-- `BTreeSet::insert`: add the pair unless already present. -/
def setInsert (p : Nat × ByteStr) (l : List (Nat × ByteStr)) : List (Nat × ByteStr) :=
  if p ∈ l then l else p :: l

/-- `BTreeSet::remove`: drop the pair if present. -/
def setErase : List (Nat × ByteStr) → Nat × ByteStr → List (Nat × ByteStr)
  | [], _ => []
  | q :: r, p => if q = p then r else q :: setErase r p

/-- `State::next_expiration`: the instant of the least pair. -/
def nextExpiration (st : DbState) : Option Nat :=
  (minPair st.expirations).map (fun p => p.1)

/-- `Db::get`: clone the stored bytes; `expires_at` is never read. -/
def dbGet (st : DbState) (key : ByteStr) : Option ByteStr :=
  (st.entries key).map (fun e => e.data)

/-- `Db::set` at clock value `now`: compute the new `expires_at` and the
`notify` flag from the state before any mutation, overwrite the entry,
drop the previous pair from the expiration index, insert the new one.
Returns the new state and whether the purger is notified. -/
def dbSet (st : DbState) (key : ByteStr) (value : ByteStr)
    (expire : Option Nat) (now : Nat) : DbState × Bool :=
  let expires_at := expire.map (fun d => now + d)
  let notify :=
    match expire with
    | none => false
    | some d =>
      match nextExpiration st with
      | none => true
      | some e => decide (now + d < e)
  let prev := st.entries key
  let entries1 : ByteStr → Option Entry := fun k =>
    if k = key then some { data := value, expires_at := expires_at } else st.entries k
  let exps1 :=
    match prev with
    | some e =>
      match e.expires_at with
      | some w => setErase st.expirations (w, key)
      | none => st.expirations
    | none => st.expirations
  let exps2 :=
    match expires_at with
    | some w => setInsert (w, key) exps1
    | none => exps1
  ({ st with entries := entries1, expirations := exps2 }, notify)

/-- `Db::subscribe`: create the channel lazily, adding one receiver. -/
def dbSubscribe (st : DbState) (channel : ByteStr) : DbState :=
  let n := match st.pub_sub channel with
    | some n => n + 1
    | none => 1
  { st with pub_sub := fun c => if c = channel then some n else st.pub_sub c }

/-- `Db::publish`: the receiver count of the channel (0 when the channel
does not exist, and `send` on a channel without receivers reports 0). -/
def dbPublish (st : DbState) (channel : ByteStr) : Nat :=
  match st.pub_sub channel with
  | some n => n
  | none => 0

/-- The drain loop of `Shared::purge_expired_keys`: take the least pair;
if its instant has passed, remove the key from `entries` and the pair
from the index and repeat; otherwise report it as the next wake-up.
Fuel bounds the iteration count (each step removes one set member). -/
def purgeLoop : Nat → DbState → Nat → DbState × Option Nat
  | 0, st, _ => (st, none)
  | fuel + 1, st, now =>
    match minPair st.expirations with
    | none => (st, none)
    | some (t, k) =>
      if now < t then (st, some t)
      else
        purgeLoop fuel
          { st with
            entries := fun k' => if k' = k then none else st.entries k'
            expirations := setErase st.expirations (t, k) }
          now

/-- `Shared::purge_expired_keys` at clock value `now`: a shutting-down
store is left untouched. -/
def dbPurge (st : DbState) (now : Nat) : DbState × Option Nat :=
  if st.shutdown then (st, none)
  else purgeLoop (st.expirations.length + 1) st now

/-- One store operation, with the clock reading passed to the operations
that consult `Instant::now()`. -/
inductive DbOp where
  | opSet (key : ByteStr) (value : ByteStr) (expire : Option Nat) (now : Nat)
  | opGet (key : ByteStr)
  | opSubscribe (channel : ByteStr)
  | opPublish (channel : ByteStr) (message : ByteStr)
  | opPurge (now : Nat)

/-- Apply one operation to the store (reads leave it unchanged; `publish`
only touches broadcast channels, never the map or the index). -/
def applyOp (st : DbState) : DbOp → DbState
  | .opSet k v e now => (dbSet st k v e now).1
  | .opGet _ => st
  | .opSubscribe c => dbSubscribe st c
  | .opPublish _ _ => st
  | .opPurge now => (dbPurge st now).1

/-- The store reached from empty by a sequence of operations. -/
def runDb (ops : List DbOp) : DbState := ops.foldl applyOp db0

/-- The expirations-entries coupling invariant of the spec. -/
def InvP (st : DbState) : Prop :=
  (∀ t k, (t, k) ∈ st.expirations →
    ∃ e, st.entries k = some e ∧ e.expires_at = some t) ∧
  (∀ k e t, st.entries k = some e → e.expires_at = some t →
    (t, k) ∈ st.expirations)

/-- The full inductive invariant: the coupling plus set-ness of the
embedded `BTreeSet`. -/
def InvFull (st : DbState) : Prop := InvP st ∧ st.expirations.Nodup

/-!  ## The buffered decoder (`connection.rs`)  -/

/-- `Connection::parse_frame` on the read buffer: run `Frame::check`;
`Incomplete` is the quiet `Ok(None)`, any other check error propagates,
and on success `Frame::parse` decodes the frame while the buffer is
advanced by the length `check` consumed. -/
def connParseFrame (buf : List Nat) : Except FErr (Option (Frame × List Nat)) :=
  match Frame.check buf with
  | .error .incomplete => .ok none
  | .error e => .error e
  | .ok rest =>
    match Frame.parse buf with
    | .ok (f, _) => .ok (some (f, rest))
    | .error e => .error e

/-- `read_frame` driven one byte at a time: append each arriving byte to
the buffer and try `parse_frame`; collect the frames produced in order.
Returns the frames and the final buffer, or the first decode error. -/
def feedBytes : List Nat → List Nat → Except FErr (List Frame × List Nat)
  | buf, [] => .ok ([], buf)
  | buf, b :: bs =>
    match connParseFrame (buf ++ [b]) with
    | .error e => .error e
    | .ok none => feedBytes (buf ++ [b]) bs
    | .ok (some (f, buf')) =>
      match feedBytes buf' bs with
      | .ok (fs, bufEnd) => .ok (f :: fs, bufEnd)
      | .error e => .error e

/-!  ## Well-formedness of frames for the encoder theorems  -/

/-- Absence of a CRLF pair inside a byte string — the shape of every line
`Frame::parse` can extract via `get_line`. -/
def noCRLF : List Nat → Bool
  | [] => true
  | [_] => true
  | b :: c :: r => !(b = 13 && c = 10) && noCRLF (c :: r)

/-- A non-array frame the parser can produce and the writer can emit:
`Simple`/`Error` text is UTF-8 with no embedded CRLF, an `Integer` is a
`u64`, and a `Bulk` length keeps `len + 2` inside `usize` — every real
Rust buffer does, since a slice length is at most `isize::MAX`, well
below `2 ^ 64 - 2`; at the two wrap lengths the codec's `len + 2`
arithmetic overflows and the round trip genuinely breaks. -/
def wfVal : Frame → Bool
  | .simple s => validUtf8 s && noCRLF s
  | .error s => validUtf8 s && noCRLF s
  | .integer n => decide (n < 2 ^ 64)
  | .bulk b => decide (b.length + 2 < 2 ^ 64)
  | .null => true
  | .array _ => false

/-- A frame the `Connection` writer can emit: a flat array of well-formed
values, or one well-formed value. -/
def wfFlat : Frame → Bool
  | .array xs => decide (xs.length < 2 ^ 64) && xs.all wfVal
  | f => wfVal f

/-!  ## The accept loop (`server.rs`, `Listener::accept`)  -/

/-- Outcome of one `self.listener.accept().await`. -/
inductive AcceptRes where
  | ok
  | err
deriving Repr, DecidableEq

/-- `Listener::accept` driven by a list of accept outcomes, starting from
backoff `b`: on success return with the rest of the outcome stream; on
failure return the error fatally when `backoff > 64`, otherwise sleep
`backoff` seconds and double it.  Result: the sleeps performed in order,
whether the fatal error was returned, and the unconsumed outcomes. -/
def acceptOnce : List AcceptRes → Nat → List Nat × Bool × List AcceptRes
  | [], _ => ([], false, [])
  | .ok :: rest, _ => ([], false, rest)
  | .err :: rest, b =>
    if b > 64 then ([], true, rest)
    else
      let (ds, t, rem) := acceptOnce rest (b * 2)
      (b :: ds, t, rem)

/-- A fresh call of `Listener::accept` (the accept loop makes one per
iteration; `backoff` is a local starting at 1, so every call resets it). -/
def acceptCall (rs : List AcceptRes) : List Nat × Bool × List AcceptRes :=
  acceptOnce rs 1

/-!  ## The connection handler (`server.rs`, `Handler::run`)

One loop iteration that has already read a complete, well-formed frame:
`Command::from_frame` followed by `Command::apply`.  The `?` on
`from_frame` propagates any parse error out of `run`, closing the
connection.  `apply` of the regular commands writes a single reply frame
and returns to the loop; `Subscribe::apply` takes over the connection
for a session, which this sequential model leaves opaque. -/

/-- Result of one handler iteration on a decoded frame. -/
inductive HStep where
  | terminateErr
  | reply (resp : Frame) (st : DbState)
  | startSession (channels : List ByteStr)

/-- Bytes of the `Unknown::apply` error text before the command name
(the UTF-8 of `未知的命令：'`). -/
def unknownMsgPre : ByteStr :=
  [230, 156, 170, 231, 159, 165, 231, 154, 132, 229, 145, 189, 228, 187, 164,
   239, 188, 154, 39]

/-- The full `Unknown::apply` error text for a command name. -/
def unknownMsg (name : ByteStr) : ByteStr := unknownMsgPre ++ name ++ [39]

/-- Bytes of `"OK"`. -/
def okBytes : ByteStr := [79, 75]

/-- Bytes of `"PONG"`. -/
def pongBytes : ByteStr := [80, 79, 78, 71]

/-- One `Handler::run` iteration applied to a decoded frame at clock
value `now`. -/
def handlerStep (st : DbState) (now : Nat) (f : Frame) : HStep :=
  match fromFrame f with
  | .error _ => .terminateErr
  | .ok (.get k) =>
    .reply (match dbGet st k with
      | some v => .bulk v
      | none => .null) st
  | .ok (.set k v e) => .reply (.simple okBytes) (dbSet st k v e now).1
  | .ok (.publish c _) =>
    .reply (.integer (dbPublish st c)) st
  | .ok (.subscribe cs) => .startSession cs
  | .ok (.ping none) => .reply (.simple pongBytes) st
  | .ok (.ping (some m)) => .reply (.bulk m) st
  | .ok (.unknown name) => .reply (.error (unknownMsg name)) st

/-- The handler loop over a sequence of decoded frames: the replies
written, and whether the loop ended by propagating an error.  A
subscribe session truncates this sequential model. -/
def handlerRun : DbState → Nat → List Frame → List Frame × Bool
  | _, _, [] => ([], false)
  | st, now, f :: fs =>
    match handlerStep st now f with
    | .terminateErr => ([], true)
    | .reply r st' =>
      let (rs, e) := handlerRun st' now fs
      (r :: rs, e)
    | .startSession _ => ([], false)

/-!  ## Helper lemmas: `Except` computation and the `Parse` iterator  -/

/-- Unfolding of `bind` on a successful `Except`. -/
@[simp] theorem exc_bind_ok {α β ε : Type} (a : α) (f : α → Except ε β) :
    (Except.ok a >>= f) = f a := rfl

/-- Unfolding of `bind` on a failed `Except`. -/
@[simp] theorem exc_bind_err {α β ε : Type} (e : ε) (f : α → Except ε β) :
    ((Except.error e : Except ε α) >>= f) = .error e := rfl

/-- Unfolding of `map` on a successful `Except`. -/
@[simp] theorem exc_map_ok {α β ε : Type} (f : α → β) (a : α) :
    (Except.ok a : Except ε α).map f = .ok (f a) := rfl

/-- Unfolding of `map` on a failed `Except`. -/
@[simp] theorem exc_map_err {α β ε : Type} (f : α → β) (e : ε) :
    (Except.error e : Except ε α).map f = .error e := rfl

/-- Inversion of a successful single-element `next_string`. -/
theorem nextString_single {f : Frame} {x : ByteStr}
    (h : nextString [f] = .ok (x, [])) :
    f = .simple x ∨ (f = .bulk x ∧ validUtf8 x = true) := by
  cases f <;> simp only [nextString] at h
  case simple s => exact Or.inl (by cases h; rfl)
  case bulk d =>
    by_cases hv : validUtf8 d = true
    · rw [if_pos hv] at h
      cases h
      exact Or.inr ⟨rfl, hv⟩
    · rw [if_neg hv] at h
      cases h
  all_goals cases h

/-- A successful single-element `next_string` lifts to any tail. -/
theorem nextString_cons {f : Frame} {x : ByteStr}
    (h : nextString [f] = .ok (x, [])) (r : List Frame) :
    nextString (f :: r) = .ok (x, r) := by
  rcases nextString_single h with h' | ⟨h', hv⟩
  · subst h'
    simp [nextString]
  · subst h'
    simp [nextString, hv]

/-- Inversion of a successful single-element `next_bytes`. -/
theorem nextBytes_single {f : Frame} {x : ByteStr}
    (h : nextBytes [f] = .ok (x, [])) :
    f = .simple x ∨ f = .bulk x := by
  cases f <;> simp only [nextBytes] at h
  case simple s => exact Or.inl (by cases h; rfl)
  case bulk d => exact Or.inr (by cases h; rfl)
  all_goals cases h

/-- A successful single-element `next_bytes` lifts to any tail. -/
theorem nextBytes_cons {f : Frame} {x : ByteStr}
    (h : nextBytes [f] = .ok (x, [])) (r : List Frame) :
    nextBytes (f :: r) = .ok (x, r) := by
  rcases nextBytes_single h with h' | h' <;> subst h' <;> simp [nextBytes]

/-- Inversion of a successful single-element `next_int`. -/
theorem nextInt_single {f : Frame} {x : Nat}
    (h : nextInt [f] = .ok (x, [])) :
    f = .integer x ∨ (∃ s, f = .simple s ∧ parseU64 s = some x) ∨
      (∃ d, f = .bulk d ∧ validUtf8 d = true ∧ parseU64 d = some x) := by
  cases f <;> simp only [nextInt] at h
  case integer v => exact Or.inl (by cases h; rfl)
  case simple s =>
    cases hp : parseU64 s with
    | none => rw [hp] at h; cases h
    | some v =>
      rw [hp] at h
      cases h
      exact Or.inr (Or.inl ⟨s, rfl, hp⟩)
  case bulk d =>
    by_cases hv : validUtf8 d = true
    · rw [if_pos hv] at h
      cases hp : parseU64 d with
      | none => rw [hp] at h; cases h
      | some v =>
        rw [hp] at h
        cases h
        exact Or.inr (Or.inr ⟨d, rfl, hv, hp⟩)
    · rw [if_neg hv] at h
      cases h
  all_goals cases h

/-- A successful single-element `next_int` lifts to any tail. -/
theorem nextInt_cons {f : Frame} {x : Nat}
    (h : nextInt [f] = .ok (x, [])) (r : List Frame) :
    nextInt (f :: r) = .ok (x, r) := by
  rcases nextInt_single h with h' | ⟨s, h', hp⟩ | ⟨d, h', hv, hp⟩
  · subst h'
    simp [nextInt]
  · subst h'
    simp [nextInt, hp]
  · subst h'
    simp [nextInt, hv, hp]

/-!  ## C1: parsing SET with a TTL  -/

/-- C1, counterexample.  The claimed four-element form
`["SET", key, value, ttl_ms]` never parses with an expiration: with an
`Integer` TTL, `next_string` rejects the `Integer` (the parser demands a
marker string there), and with a decimal-string TTL the string is eaten
as the marker and the following `next_int` hits end of stream.  Both
variants return an error instead of the claimed `Set` command. -/
theorem set_ttl_four_element_rejected :
    fromFrame (.array [.bulk [83, 69, 84], .bulk [107], .bulk [118],
        .integer 100]) = .error .other ∧
    fromFrame (.array [.bulk [83, 69, 84], .bulk [107], .bulk [118],
        .bulk [49, 48, 48]]) = .error .endOfStream := by
  constructor <;> rfl

/-- C1, amended.  A five-element request
`["SET", key, value, marker, ttl_ms]` — with one marker token before the
TTL — parses into `Set` with `expire = Some(ttl_ms)`: the marker is
consumed by `next_string` and ignored, and the TTL may be an `Integer`
or a `Simple`/`Bulk` decimal string (any frame `next_int` accepts). -/
theorem set_ttl_marker_parse (K V M T : Frame) (k v m : ByteStr) (t : Nat)
    (hK : nextString [K] = .ok (k, []))
    (hV : nextBytes [V] = .ok (v, []))
    (hM : nextString [M] = .ok (m, []))
    (hT : nextInt [T] = .ok (t, [])) :
    fromFrame (.array [.bulk [83, 69, 84], K, V, M, T]) =
      .ok (.set k v (some t)) := by
  have hbase : nextString [Frame.bulk [83, 69, 84]] = .ok ([83, 69, 84], []) := by
    rfl
  have h0 := nextString_cons hbase [K, V, M, T]
  have h1 := nextString_cons hK [V, M, T]
  have h2 := nextBytes_cons hV [M, T]
  have h3 := nextString_cons hM [T]
  simp only [fromFrame, setParse, h0, h1, h2, h3, hT, exc_bind_ok]
  norm_num [lowerAscii, lowerByte, nmGet, nmSet, nmPublish, nmSubscribe,
    nmPing, finish]

/-- C1, witness: `["SET", "k", "v", "px", 100]` parses to
`Set { key: "k", value: "v", expire: Some(100 ms) }`. -/
theorem set_ttl_marker_parse_witness :
    fromFrame (.array [.bulk [83, 69, 84], .bulk [107], .bulk [118],
        .bulk [112, 120], .integer 100]) =
      .ok (.set [107] [118] (some 100)) :=
  set_ttl_marker_parse (.bulk [107]) (.bulk [118]) (.bulk [112, 120])
    (.integer 100) [107] [118] [112, 120] 100 rfl rfl rfl rfl

/-!  ## C9: command / frame round trip  -/

/-- C9, the failing input evaluated.  `Set::into_frame` for
`Set { key: "k", value: "v", expire: Some(100 ms) }` emits the
four-element frame `["set", "k", "v", Integer(100)]`, and
`Command::from_frame` rejects exactly that frame (its `next_string`
refuses the `Integer` where it expects the marker string), so the
round trip the claim asserts fails for every `Set` with an
expiration. -/
theorem set_expire_roundtrip_fails :
    intoFrame (.set [107] [118] (some 100)) =
      some (.array [.bulk nmSet, .bulk [107], .bulk [118], .integer 100]) ∧
    fromFrame (.array [.bulk nmSet, .bulk [107], .bulk [118], .integer 100]) =
      .error .other := by
  constructor <;> rfl

/-!  ## C6: accept backoff  -/

/-- Generalised backoff unrolling: starting from backoff `2 ^ j`, a run
of `k` failures followed by a success sleeps `2 ^ j, …, 2 ^ (j + k - 1)`
and returns non-fatally, provided `j + k ≤ 7` (so the threshold 64 is
never exceeded). -/
theorem acceptOnce_run (k : Nat) :
    ∀ j (rest : List AcceptRes), j + k ≤ 7 →
      acceptOnce (List.replicate k .err ++ .ok :: rest) (2 ^ j) =
        ((List.range k).map (fun i => 2 ^ (j + i)), false, rest) := by
  induction k with
  | zero => intro j rest _; simp [acceptOnce]
  | succ k ih =>
    intro j rest hjk
    have hj6 : j ≤ 6 := by omega
    have hb : ¬ 2 ^ j > 64 := by
      have : (2 : Nat) ^ j ≤ 2 ^ 6 := Nat.pow_le_pow_right (by norm_num) hj6
      omega
    have hstep := ih (j + 1) rest (by omega)
    simp only [List.replicate, List.cons_append, acceptOnce, if_neg hb]
    rw [show 2 ^ j * 2 = 2 ^ (j + 1) by rw [Nat.pow_succ]]
    simp only [List.append_eq, hstep]
    simp [List.range_succ_eq_map, List.map_map, Function.comp]
    intro a _
    omega

/-- C6, counterexample.  Seven consecutive accept failures leave
`Listener::accept` still retrying — after sleeping 1, 2, 4, 8, 16, 32
and 64 seconds it waits for an eighth outcome rather than returning the
error — so the claimed "the 7th consecutive failure is terminal" is
false; the error is returned on the 8th consecutive failure. -/
theorem seventh_failure_not_terminal :
    acceptCall (List.replicate 7 .err) = ([1, 2, 4, 8, 16, 32, 64], false, []) ∧
    acceptCall (List.replicate 8 .err) = ([1, 2, 4, 8, 16, 32, 64], true, []) := by
  constructor <;> rfl

/-- C6, amended.  A run of `k ≤ 7` consecutive accept failures sleeps
`2 ^ 0, …, 2 ^ (k - 1)` seconds; an eighth consecutive failure makes
`Listener::accept` return the error (ending the accept loop) after the
seven sleeps; and a success returns at once with backoff untouched, so
the next `accept` call — whose backoff is a local starting at 1 —
begins again at 1 second. -/
theorem accept_backoff_delays :
    (∀ k (rest : List AcceptRes), k ≤ 7 →
      acceptCall (List.replicate k .err ++ .ok :: rest) =
        ((List.range k).map (fun i => 2 ^ i), false, rest)) ∧
    (∀ rest : List AcceptRes,
      acceptCall (List.replicate 8 .err ++ rest) =
        ((List.range 7).map (fun i => 2 ^ i), true, rest)) ∧
    (∀ k1 k2 (r : List AcceptRes), k1 ≤ 7 → k2 ≤ 7 →
      acceptCall (List.replicate k1 .err ++ .ok ::
          (List.replicate k2 .err ++ .ok :: r)) =
        ((List.range k1).map (fun i => 2 ^ i), false,
          List.replicate k2 .err ++ .ok :: r) ∧
      acceptCall (List.replicate k2 .err ++ .ok :: r) =
        ((List.range k2).map (fun i => 2 ^ i), false, r)) := by
  have key : ∀ k (rest : List AcceptRes), k ≤ 7 →
      acceptCall (List.replicate k .err ++ .ok :: rest) =
        ((List.range k).map (fun i => 2 ^ i), false, rest) := by
    intro k rest hk
    have := acceptOnce_run k 0 rest (by omega)
    simpa [acceptCall] using this
  refine ⟨key, ?_, ?_⟩
  · intro rest
    show acceptOnce _ 1 = _
    norm_num [List.replicate, acceptOnce, List.range_succ]
  · intro k1 k2 r h1 h2
    exact ⟨key k1 _ h1, key k2 _ h2⟩

/-- C6, witness: three failures then a success sleep 1, 2 and 4 seconds
and do not end the loop; the backoff of the next call restarts at 1. -/
theorem accept_backoff_delays_witness :
    acceptCall [.err, .err, .err, .ok, .err, .ok] = ([1, 2, 4], false, [.err, .ok]) ∧
    acceptCall [.err, .ok] = ([1], false, []) := by
  have h := (accept_backoff_delays.2.2) 3 1 [] (by norm_num) (by norm_num)
  constructor
  · have := h.1
    simpa [List.replicate, List.range_succ] using this
  · have := h.2
    simpa [List.replicate, List.range_succ] using this

/-!  ## Helper lemmas: the least element of the expiration index  -/

/-- `minPair` returns `none` exactly on the empty set. -/
theorem minPair_eq_none {l : List (Nat × ByteStr)} :
    minPair l = none ↔ l = [] := by
  cases l with
  | nil => simp [minPair]
  | cons p r =>
    simp only [minPair]
    cases minPair r <;> simp

/-- The least pair is a member of the set. -/
theorem minPair_mem {l : List (Nat × ByteStr)} {p : Nat × ByteStr}
    (h : minPair l = some p) : p ∈ l := by
  induction l generalizing p with
  | nil => cases h
  | cons q r ih =>
    simp only [minPair] at h
    cases hr : minPair r with
    | none =>
      rw [hr] at h
      dsimp only at h
      cases h
      exact List.mem_cons_self _ _
    | some m =>
      rw [hr] at h
      dsimp only at h
      by_cases hlt : pairLt m q = true
      · rw [if_pos hlt] at h
        cases h
        exact List.mem_cons_of_mem _ (ih hr)
      · rw [if_neg hlt] at h
        cases h
        exact List.mem_cons_self _ _

/-- The least pair has the least instant. -/
theorem minPair_le {l : List (Nat × ByteStr)} {p : Nat × ByteStr}
    (h : minPair l = some p) : ∀ x ∈ l, p.1 ≤ x.1 := by
  induction l generalizing p with
  | nil => cases h
  | cons q r ih =>
    simp only [minPair] at h
    cases hr : minPair r with
    | none =>
      rw [hr] at h
      dsimp only at h
      cases h
      have hre : r = [] := minPair_eq_none.mp hr
      subst hre
      intro x hx
      rcases List.mem_cons.mp hx with hx | hx
      · subst hx
        exact le_refl _
      · cases hx
    | some m =>
      rw [hr] at h
      dsimp only at h
      have hmle : ∀ x ∈ r, m.1 ≤ x.1 := ih hr
      intro x hx
      by_cases hlt : pairLt m q = true
      · rw [if_pos hlt] at h
        cases h
        simp only [pairLt, Bool.or_eq_true, Bool.and_eq_true,
          decide_eq_true_eq] at hlt
        rcases List.mem_cons.mp hx with hx | hx
        · subst hx
          rcases hlt with h1 | ⟨h1, _⟩ <;> omega
        · exact hmle x hx
      · rw [if_neg hlt] at h
        cases h
        simp only [pairLt, Bool.or_eq_true, Bool.and_eq_true,
          decide_eq_true_eq, not_or, not_and] at hlt
        rcases List.mem_cons.mp hx with hx | hx
        · subst hx
          exact le_refl _
        · have := hmle x hx
          omega

/-!  ## C8: the purger notification condition of `Db::set`  -/

/-- C8.  `Db::set` with an expiration notifies the purger exactly when
the new instant `now + d` is strictly earlier than every instant in the
expiration index at the time of the call (equivalently: earlier than the
current earliest, or the index is empty); a `set` without an expiration
never notifies. -/
theorem set_notify_condition (st : DbState) (k v : ByteStr) (now : Nat) :
    (∀ d, ((dbSet st k v (some d) now).2 = true ↔
      ∀ p ∈ st.expirations, now + d < p.1)) ∧
    (dbSet st k v none now).2 = false := by
  constructor
  · intro d
    simp only [dbSet, nextExpiration]
    cases hm : minPair st.expirations with
    | none =>
      have : st.expirations = [] := minPair_eq_none.mp hm
      simp [this]
    | some p =>
      simp only [Option.map_some']
      constructor
      · intro h q hq
        have h1 : now + d < p.1 := by simpa using h
        exact lt_of_lt_of_le h1 (minPair_le hm q hq)
      · intro h
        simpa using h p (minPair_mem hm)
  · rfl

/-- C8, witness: on the empty store a `set` with TTL 5 notifies, and on a
store whose earliest expiration is 7 a `set` with TTL 100 at clock 0 does
not (100 is not earlier than 7); a `set` without TTL never notifies. -/
theorem set_notify_condition_witness :
    (dbSet db0 [107] [118] (some 5) 0).2 = true ∧
    (dbSet (runDb [.opSet [97] [0] (some 7) 0]) [107] [118] (some 100) 0).2 = false ∧
    (dbSet db0 [107] [118] none 0).2 = false := by
  refine ⟨?_, ?_, (set_notify_condition db0 [107] [118] 0).2⟩
  · exact ((set_notify_condition db0 [107] [118] 0).1 5).mpr (by decide)
  · have h := ((set_notify_condition (runDb [.opSet [97] [0] (some 7) 0])
      [107] [118] 0).1 100)
    by_contra hc
    have : (dbSet (runDb [.opSet [97] [0] (some 7) 0]) [107] [118]
        (some 100) 0).2 = true := by
      revert hc
      cases (dbSet (runDb [.opSet [97] [0] (some 7) 0]) [107] [118]
        (some 100) 0).2 <;> simp
    have := h.mp this (7, [97]) (by decide)
    omega

/-!  ## C4: error reporting in the handler loop  -/

/-- C4, counterexample.  `GET` with no key is a well-formed `Array` whose
command parsing fails (`EndOfStream` argument error); the handler
propagates the error: the connection is closed with no `Error` frame
written, and the following `PING` is never served — refuting "reports
the error to that client as an Error frame and the connection
continues". -/
theorem argument_error_closes_connection :
    handlerRun db0 0 [.array [.bulk nmGet], .array [.bulk nmPing]] = ([], true) ∧
    fromFrame (.array [.bulk nmGet]) = .error .endOfStream := by
  constructor <;> rfl

/-- C4, amended.  A command-level argument error (any `from_frame`
failure on the decoded frame) makes `Handler::run` propagate the error:
the connection terminates and no reply — in particular no `Error`
frame — is written.  Only an unrecognised command name is answered with
an `Error` frame after which the loop goes on to serve the next frame
(the hypothesis restricts to ASCII names, where the embedded
lowercasing is exact). -/
theorem handler_error_reporting :
    (∀ (st : DbState) (now : Nat) (f : Frame) (e : PErr) (fs : List Frame),
      fromFrame f = .error e → handlerRun st now (f :: fs) = ([], true)) ∧
    (∀ (st : DbState) (now : Nat) (s : ByteStr) (rest fs : List Frame),
      s.all (fun b => b < 128) = true →
      lowerAscii s ≠ nmGet → lowerAscii s ≠ nmSet →
      lowerAscii s ≠ nmPublish → lowerAscii s ≠ nmSubscribe →
      lowerAscii s ≠ nmPing →
      handlerRun st now (.array (.simple s :: rest) :: fs) =
        (.error (unknownMsg (lowerAscii s)) :: (handlerRun st now fs).1,
          (handlerRun st now fs).2)) := by
  constructor
  · intro st now f e fs h
    simp [handlerRun, handlerStep, h]
  · intro st now s rest fs _ h1 h2 h3 h4 h5
    have hff : fromFrame (.array (.simple s :: rest)) =
        .ok (.unknown (lowerAscii s)) := by
      simp [fromFrame, nextString, h1, h2, h3, h4, h5]
    simp only [handlerRun, handlerStep, hff]

/-- C4, witness: `FROBNIC x` draws the unknown-command `Error` frame and
the following `PING` is still answered `PONG`; `GET` without a key kills
the connection before the following `PING`. -/
theorem handler_error_reporting_witness :
    handlerRun db0 0 [.array [.simple [70, 82, 79, 66, 78, 73, 67], .bulk [120]],
        .array [.bulk nmPing]] =
      ([.error (unknownMsg [102, 114, 111, 98, 110, 105, 99]),
        .simple pongBytes], false) ∧
    handlerRun db0 0 [.array [.bulk nmGet], .array [.bulk nmPing]] = ([], true) := by
  constructor
  · have h := handler_error_reporting.2 db0 0 [70, 82, 79, 66, 78, 73, 67]
      [.bulk [120]] [.array [.bulk nmPing]] (by decide)
      (by decide) (by decide) (by decide) (by decide) (by decide)
    rw [h]
    rfl
  · exact handler_error_reporting.1 db0 0 (.array [.bulk nmGet]) .endOfStream
      [.array [.bulk nmPing]] rfl

/-!  ## Helper lemmas: embedded `BTreeSet` operations  -/

/-- Membership in `setInsert`. -/
theorem mem_setInsert {x p : Nat × ByteStr} {l : List (Nat × ByteStr)} :
    x ∈ setInsert p l ↔ x = p ∨ x ∈ l := by
  by_cases hp : p ∈ l
  · simp only [setInsert, if_pos hp]
    constructor
    · exact Or.inr
    · rintro (rfl | hx) <;> assumption
  · simp [setInsert, if_neg hp]

/-- `setInsert` preserves `Nodup`. -/
theorem nodup_setInsert {p : Nat × ByteStr} {l : List (Nat × ByteStr)}
    (h : l.Nodup) : (setInsert p l).Nodup := by
  by_cases hp : p ∈ l
  · simpa [setInsert, if_pos hp] using h
  · simpa [setInsert, if_neg hp, hp] using h

/-- `setErase` only removes elements. -/
theorem setErase_subset {x p : Nat × ByteStr} {l : List (Nat × ByteStr)}
    (h : x ∈ setErase l p) : x ∈ l := by
  induction l with
  | nil => cases h
  | cons q r ih =>
    simp only [setErase] at h
    by_cases hq : q = p
    · rw [if_pos hq] at h
      exact List.mem_cons_of_mem _ h
    · rw [if_neg hq] at h
      rcases List.mem_cons.mp h with h | h
      · exact h ▸ List.mem_cons_self _ _
      · exact List.mem_cons_of_mem _ (ih h)

/-- Elements different from the erased one survive `setErase`. -/
theorem mem_setErase_of_ne {x p : Nat × ByteStr} {l : List (Nat × ByteStr)}
    (hne : x ≠ p) : x ∈ setErase l p ↔ x ∈ l := by
  induction l with
  | nil => simp [setErase]
  | cons q r ih =>
    simp only [setErase]
    by_cases hq : q = p
    · rw [if_pos hq]
      subst hq
      simp only [List.mem_cons]
      constructor
      · exact Or.inr
      · rintro (rfl | h)
        · exact absurd rfl hne
        · exact h
    · rw [if_neg hq]
      simp [ih]

/-- On a `Nodup` list the erased element is gone. -/
theorem not_mem_setErase_self {p : Nat × ByteStr} {l : List (Nat × ByteStr)}
    (h : l.Nodup) : p ∉ setErase l p := by
  induction l with
  | nil => simp [setErase]
  | cons q r ih =>
    simp only [setErase]
    rcases List.nodup_cons.mp h with ⟨hq, hr⟩
    by_cases hqp : q = p
    · rw [if_pos hqp]
      subst hqp
      exact hq
    · rw [if_neg hqp]
      intro hmem
      rcases List.mem_cons.mp hmem with h' | h'
      · exact hqp h'.symm
      · exact ih hr h'

/-- `setErase` preserves `Nodup`. -/
theorem nodup_setErase {p : Nat × ByteStr} {l : List (Nat × ByteStr)}
    (h : l.Nodup) : (setErase l p).Nodup := by
  induction l with
  | nil => simp [setErase]
  | cons q r ih =>
    rcases List.nodup_cons.mp h with ⟨hq, hr⟩
    simp only [setErase]
    by_cases hqp : q = p
    · rw [if_pos hqp]
      exact hr
    · rw [if_neg hqp]
      refine List.nodup_cons.mpr ⟨fun hmem => hq (setErase_subset hmem), ih hr⟩

/-- Erasing a member shortens the list by one. -/
theorem length_setErase_mem {p : Nat × ByteStr} {l : List (Nat × ByteStr)}
    (h : p ∈ l) : (setErase l p).length + 1 = l.length := by
  induction l with
  | nil => cases h
  | cons q r ih =>
    simp only [setErase]
    by_cases hq : q = p
    · rw [if_pos hq]
      simp
    · rw [if_neg hq]
      rcases List.mem_cons.mp h with h' | h'
      · exact absurd h'.symm hq
      · simpa using ih h'

/-!  ## Helper lemmas: the store invariant  -/

/-- `Db::set` preserves the full store invariant. -/
theorem dbSet_inv {st : DbState} (h : InvFull st) (k v : ByteStr)
    (ex : Option Nat) (now : Nat) : InvFull (dbSet st k v ex now).1 := by
  obtain ⟨⟨h1, h2⟩, hnd⟩ := h
  -- name the pieces of the new state
  cases ex with
  | none =>
    -- no new expiration: the entry is overwritten with `expires_at = none`
    -- and at most the previous pair is dropped from the index
    cases hprev : st.entries k with
    | none =>
      refine ⟨⟨?_, ?_⟩, ?_⟩ <;> simp only [dbSet, hprev, Option.map_none']
      · intro t k' hmem
        obtain ⟨e, he, het⟩ := h1 t k' hmem
        by_cases hk : k' = k
        · subst hk
          rw [hprev] at he
          cases he
        · exact ⟨e, by simpa [hk] using he, het⟩
      · intro k' e t he het
        by_cases hk : k' = k
        · subst hk
          simp only [if_pos rfl] at he
          cases he
          cases het
        · simp only [if_neg hk] at he
          exact h2 k' e t he het
      · exact hnd
    | some e0 =>
      cases he0 : e0.expires_at with
      | none =>
        refine ⟨⟨?_, ?_⟩, ?_⟩ <;> simp only [dbSet, hprev, he0, Option.map_none']
        · intro t k' hmem
          obtain ⟨e, he, het⟩ := h1 t k' hmem
          by_cases hk : k' = k
          · subst hk
            rw [hprev] at he
            cases he
            rw [he0] at het
            cases het
          · exact ⟨e, by simpa [hk] using he, het⟩
        · intro k' e t he het
          by_cases hk : k' = k
          · subst hk
            simp only [if_pos rfl] at he
            cases he
            cases het
          · simp only [if_neg hk] at he
            exact h2 k' e t he het
        · exact hnd
      | some w =>
        refine ⟨⟨?_, ?_⟩, ?_⟩ <;> simp only [dbSet, hprev, he0, Option.map_none']
        · intro t k' hmem
          have hmem' := setErase_subset hmem
          obtain ⟨e, he, het⟩ := h1 t k' hmem'
          by_cases hk : k' = k
          · subst hk
            rw [hprev] at he
            cases he
            rw [he0] at het
            cases het
            exact absurd hmem (not_mem_setErase_self hnd)
          · exact ⟨e, by simpa [hk] using he, het⟩
        · intro k' e t he het
          by_cases hk : k' = k
          · subst hk
            simp only [if_pos rfl] at he
            cases he
            cases het
          · simp only [if_neg hk] at he
            have hmem := h2 k' e t he het
            exact (mem_setErase_of_ne (by simp [hk])).mpr hmem
        · exact nodup_setErase hnd
  | some dur =>
    cases hprev : st.entries k with
    | none =>
      refine ⟨⟨?_, ?_⟩, ?_⟩ <;> simp only [dbSet, hprev, Option.map_some']
      · intro t k' hmem
        rcases mem_setInsert.mp hmem with heq | hmem'
        · cases heq
          exact ⟨{ data := v, expires_at := some (now + dur) }, by simp, rfl⟩
        · obtain ⟨e, he, het⟩ := h1 t k' hmem'
          by_cases hk : k' = k
          · subst hk
            rw [hprev] at he
            cases he
          · exact ⟨e, by simpa [hk] using he, het⟩
      · intro k' e t he het
        by_cases hk : k' = k
        · subst hk
          simp only [if_pos rfl] at he
          cases he
          simp only [Option.some.injEq] at het
          subst het
          exact mem_setInsert.mpr (Or.inl rfl)
        · simp only [if_neg hk] at he
          exact mem_setInsert.mpr (Or.inr (h2 k' e t he het))
      · exact nodup_setInsert hnd
    | some e0 =>
      cases he0 : e0.expires_at with
      | none =>
        refine ⟨⟨?_, ?_⟩, ?_⟩ <;> simp only [dbSet, hprev, he0, Option.map_some']
        · intro t k' hmem
          rcases mem_setInsert.mp hmem with heq | hmem'
          · cases heq
            exact ⟨{ data := v, expires_at := some (now + dur) }, by simp, rfl⟩
          · obtain ⟨e, he, het⟩ := h1 t k' hmem'
            by_cases hk : k' = k
            · subst hk
              rw [hprev] at he
              cases he
              rw [he0] at het
              cases het
            · exact ⟨e, by simpa [hk] using he, het⟩
        · intro k' e t he het
          by_cases hk : k' = k
          · subst hk
            simp only [if_pos rfl] at he
            cases he
            simp only [Option.some.injEq] at het
            subst het
            exact mem_setInsert.mpr (Or.inl rfl)
          · simp only [if_neg hk] at he
            exact mem_setInsert.mpr (Or.inr (h2 k' e t he het))
        · exact nodup_setInsert hnd
      | some w =>
        refine ⟨⟨?_, ?_⟩, ?_⟩ <;> simp only [dbSet, hprev, he0, Option.map_some']
        · intro t k' hmem
          rcases mem_setInsert.mp hmem with heq | hmem'
          · cases heq
            exact ⟨{ data := v, expires_at := some (now + dur) }, by simp, rfl⟩
          · have hmem'' := setErase_subset hmem'
            obtain ⟨e, he, het⟩ := h1 t k' hmem''
            by_cases hk : k' = k
            · subst hk
              rw [hprev] at he
              cases he
              rw [he0] at het
              cases het
              exact absurd hmem' (not_mem_setErase_self hnd)
            · exact ⟨e, by simpa [hk] using he, het⟩
        · intro k' e t he het
          by_cases hk : k' = k
          · subst hk
            simp only [if_pos rfl] at he
            cases he
            simp only [Option.some.injEq] at het
            subst het
            exact mem_setInsert.mpr (Or.inl rfl)
          · simp only [if_neg hk] at he
            have hmem := h2 k' e t he het
            exact mem_setInsert.mpr
              (Or.inr ((mem_setErase_of_ne (by simp [hk])).mpr hmem))
        · exact nodup_setInsert (nodup_setErase hnd)

/-- One drain step of the purger preserves the full invariant. -/
theorem purge_step_inv {st : DbState} (h : InvFull st) {t0 : Nat} {k0 : ByteStr}
    (hm : minPair st.expirations = some (t0, k0)) :
    InvFull { st with
      entries := fun k' => if k' = k0 then none else st.entries k'
      expirations := setErase st.expirations (t0, k0) } := by
  obtain ⟨⟨h1, h2⟩, hnd⟩ := h
  refine ⟨⟨?_, ?_⟩, nodup_setErase hnd⟩
  · intro t k hmem
    have hmem' := setErase_subset hmem
    by_cases hk : k = k0
    · subst hk
      obtain ⟨e, he, het⟩ := h1 t k hmem'
      obtain ⟨e', he', het'⟩ := h1 t0 k (minPair_mem hm)
      rw [he] at he'
      cases he'
      rw [het] at het'
      cases het'
      exact absurd hmem (not_mem_setErase_self hnd)
    · obtain ⟨e, he, het⟩ := h1 t k hmem'
      exact ⟨e, by simpa [hk] using he, het⟩
  · intro k e t he het
    simp only at he
    by_cases hk : k = k0
    · rw [if_pos hk] at he
      cases he
    · rw [if_neg hk] at he
      have hmem := h2 k e t he het
      exact (mem_setErase_of_ne (by simp [hk])).mpr hmem

/-- The purger's drain loop preserves the full invariant. -/
theorem purgeLoop_inv :
    ∀ (fuel : Nat) (st : DbState) (now : Nat), InvFull st →
      InvFull (purgeLoop fuel st now).1 := by
  intro fuel
  induction fuel with
  | zero => intro st now h; exact h
  | succ fuel ih =>
    intro st now h
    simp only [purgeLoop]
    cases hm : minPair st.expirations with
    | none => exact h
    | some p =>
      obtain ⟨t0, k0⟩ := p
      dsimp only
      by_cases hlt : now < t0
      · rw [if_pos hlt]
        exact h
      · rw [if_neg hlt]
        exact ih _ now (purge_step_inv h hm)

/-- The purger never re-creates an entry. -/
theorem purgeLoop_entries_none :
    ∀ (fuel : Nat) (st : DbState) (now : Nat) (k : ByteStr),
      st.entries k = none → (purgeLoop fuel st now).1.entries k = none := by
  intro fuel
  induction fuel with
  | zero => intro st now k h; exact h
  | succ fuel ih =>
    intro st now k h
    simp only [purgeLoop]
    cases hm : minPair st.expirations with
    | none => exact h
    | some p =>
      obtain ⟨t0, k0⟩ := p
      dsimp only
      by_cases hlt : now < t0
      · rw [if_pos hlt]
        exact h
      · rw [if_neg hlt]
        refine ih _ now k ?_
        by_cases hk : k = k0 <;> simp [hk, h]

/-- With sufficient fuel, the drain loop removes from `entries` every key
whose indexed instant has passed. -/
theorem purgeLoop_removes :
    ∀ (fuel : Nat) (st : DbState) (now : Nat), InvFull st →
      st.expirations.length < fuel →
      ∀ t k, (t, k) ∈ st.expirations → t ≤ now →
        (purgeLoop fuel st now).1.entries k = none := by
  intro fuel
  induction fuel with
  | zero => intro st now _ hlen; omega
  | succ fuel ih =>
    intro st now h hlen t k hmem htle
    obtain ⟨⟨h1, h2⟩, hnd⟩ := h
    simp only [purgeLoop]
    cases hm : minPair st.expirations with
    | none =>
      rw [minPair_eq_none.mp hm] at hmem
      cases hmem
    | some p =>
      obtain ⟨t0, k0⟩ := p
      dsimp only
      have ht0 : t0 ≤ t := minPair_le hm (t, k) hmem
      by_cases hlt : now < t0
      · omega
      · rw [if_neg hlt]
        by_cases hpk : (t, k) = (t0, k0)
        · cases hpk
          refine purgeLoop_entries_none _ _ now k ?_
          simp
        · have hkne : k ≠ k0 := by
            intro hk
            subst hk
            obtain ⟨e, he, het⟩ := h1 t k hmem
            obtain ⟨e', he', het'⟩ := h1 t0 k (minPair_mem hm)
            rw [he] at he'
            cases he'
            rw [het] at het'
            cases het'
            exact hpk rfl
          refine ih _ now (purge_step_inv ⟨⟨h1, h2⟩, hnd⟩ hm) ?_ t k ?_ htle
          · have := length_setErase_mem (minPair_mem hm)
            simp only at this ⊢
            omega
          · exact (mem_setErase_of_ne hpk).mpr hmem

/-- `Db::subscribe` and the untouched-state operations preserve the
invariant; `Shared::purge_expired_keys` preserves it too. -/
theorem applyOp_inv {st : DbState} (h : InvFull st) (op : DbOp) :
    InvFull (applyOp st op) := by
  cases op with
  | opSet k v e now => exact dbSet_inv h k v e now
  | opGet _ => exact h
  | opSubscribe c => exact h
  | opPublish _ _ => exact h
  | opPurge now =>
    simp only [applyOp, dbPurge]
    by_cases hs : st.shutdown = true
    · rw [if_pos hs]
      exact h
    · rw [if_neg hs]
      exact purgeLoop_inv _ st now h

/-- The empty store satisfies the invariant. -/
theorem db0_inv : InvFull db0 := by
  refine ⟨⟨?_, ?_⟩, List.nodup_nil⟩
  · intro t k hmem
    cases hmem
  · intro k e t he
    cases he

/-- Every store reachable from empty satisfies the full invariant. -/
theorem runDb_inv (ops : List DbOp) : InvFull (runDb ops) := by
  suffices h : ∀ (l : List DbOp) (st : DbState), InvFull st →
      InvFull (List.foldl applyOp st l) by
    exact h ops db0 db0_inv
  intro l
  induction l with
  | nil => intro st h; exact h
  | cons op rest ih =>
    intro st h
    exact ih _ (applyOp_inv h op)

/-!  ## C3: the expirations-entries invariant  -/

/-- C3.  Starting from the empty store, after any sequence of `set`,
`get`, `subscribe`, `publish` and purge steps: every pair `(t, k)` of the
expiration index has a live entry for `k` with `expires_at = Some(t)`;
conversely every entry with `expires_at = Some(t)` has its pair `(t, k)`
in the index; and that pair is the only one for `k` (the "exactly one
matching tuple" of the spec). -/
theorem store_expiration_invariant (ops : List DbOp) :
    (∀ t k, (t, k) ∈ (runDb ops).expirations →
      ∃ e, (runDb ops).entries k = some e ∧ e.expires_at = some t) ∧
    (∀ k e t, (runDb ops).entries k = some e → e.expires_at = some t →
      (t, k) ∈ (runDb ops).expirations) ∧
    (∀ k t t', (t, k) ∈ (runDb ops).expirations →
      (t', k) ∈ (runDb ops).expirations → t = t') := by
  obtain ⟨⟨h1, h2⟩, hnd⟩ := runDb_inv ops
  refine ⟨h1, h2, ?_⟩
  intro k t t' hm hm'
  obtain ⟨e, he, het⟩ := h1 t k hm
  obtain ⟨e', he', het'⟩ := h1 t' k hm'
  rw [he] at he'
  cases he'
  rw [het] at het'
  cases het'
  rfl

/-- C3, witness: after `set "k" "v" ttl=5` at clock 10 the index holds
exactly `(15, "k")` and both directions of the invariant hold there. -/
theorem store_expiration_invariant_witness :
    (∃ e, (runDb [.opSet [107] [118] (some 5) 10]).entries [107] = some e ∧
      e.expires_at = some 15) ∧
    (15, [107]) ∈ (runDb [.opSet [107] [118] (some 5) 10]).expirations := by
  constructor
  · exact (store_expiration_invariant [.opSet [107] [118] (some 5) 10]).1
      15 [107] (by decide)
  · exact (store_expiration_invariant [.opSet [107] [118] (some 5) 10]).2.1
      [107] { data := [118], expires_at := some 15 } 15 rfl rfl

/-!  ## C10: `Db::get` ignores expiry until the purge runs  -/

/-- C10.  `Db::get` never consults `expires_at`: whenever the entry is
present it returns its bytes — whatever the entry's expiration field
holds, in particular one already in the past — and it returns `None`
exactly when the key is absent from the map.  Expiry becomes observable
through `get` only via the purge step: after
`purge_expired_keys` at a clock past the entry's instant, `get` is
`None`. -/
theorem get_ignores_expiry :
    (∀ (st : DbState) (k : ByteStr) (e : Entry),
      st.entries k = some e → dbGet st k = some e.data) ∧
    (∀ (st : DbState) (k : ByteStr),
      st.entries k = none → dbGet st k = none) ∧
    (∀ (st : DbState) (k : ByteStr) (e : Entry) (t now : Nat),
      InvFull st → st.shutdown = false →
      st.entries k = some e → e.expires_at = some t → t ≤ now →
      dbGet (dbPurge st now).1 k = none) := by
  refine ⟨?_, ?_, ?_⟩
  · intro st k e he
    simp [dbGet, he]
  · intro st k he
    simp [dbGet, he]
  · intro st k e t now hinv hsd he het htle
    have hmem := hinv.1.2 k e t he het
    have hrm := purgeLoop_removes (st.expirations.length + 1) st now hinv
      (by omega) t k hmem htle
    simp [dbGet, dbPurge, hsd, hrm]

/-- C10, witness: with `(k, v)` stored under TTL 5 at clock 10, `get`
still returns `v` at any time while the entry is unpurged (the model
reads no clock), and after a purge at clock 20 it returns `None`. -/
theorem get_ignores_expiry_witness :
    dbGet (runDb [.opSet [107] [118] (some 5) 10]) [107] = some [118] ∧
    dbGet (dbPurge (runDb [.opSet [107] [118] (some 5) 10]) 20).1 [107] = none := by
  constructor
  · exact get_ignores_expiry.1 (runDb [.opSet [107] [118] (some 5) 10]) [107]
      { data := [118], expires_at := some 15 } rfl
  · exact get_ignores_expiry.2.2 (runDb [.opSet [107] [118] (some 5) 10]) [107]
      { data := [118], expires_at := some 15 } 15 20
      (runDb_inv [.opSet [107] [118] (some 5) 10]) rfl rfl rfl (by norm_num)

/-!  ## Helper lemmas: lines and decimals on the wire  -/

/-- The fuelled digit expansion agrees with `Nat.digits` once the fuel
covers the number. -/
theorem natDigitsRev_eq_digits :
    ∀ (fuel n : Nat), n ≤ fuel → natDigitsRev fuel n = Nat.digits 10 n := by
  intro fuel
  induction fuel with
  | zero =>
    intro n hn
    interval_cases n
    simp [natDigitsRev]
  | succ fuel ih =>
    intro n hn
    by_cases h0 : n = 0
    · subst h0
      simp [natDigitsRev]
    · rw [natDigitsRev, if_neg h0]
      have hdiv : n / 10 ≤ fuel := by
        have := Nat.div_lt_self (Nat.pos_of_ne_zero h0) (by norm_num : 1 < 10)
        omega
      rw [ih (n / 10) hdiv]
      rw [Nat.digits_def' (by norm_num : 1 < 10) (Nat.pos_of_ne_zero h0)]

/-- `decBytes` written through `Nat.digits`. -/
theorem decBytes_eq (n : Nat) :
    decBytes n =
      if n = 0 then [48]
      else ((Nat.digits 10 n).map (fun d => d + 48)).reverse := by
  by_cases h0 : n = 0
  · simp [decBytes, h0]
  · rw [decBytes, if_neg h0, if_neg h0, natDigitsRev_eq_digits n n (le_refl n)]

/-- `noCRLF` passes to the tail. -/
theorem noCRLF_tail {b : Nat} {s : List Nat} (h : noCRLF (b :: s) = true) :
    noCRLF s = true := by
  cases s with
  | nil => rfl
  | cons c r =>
    simp only [noCRLF, Bool.and_eq_true] at h
    exact h.2

/-- A head byte other than 13 keeps `noCRLF`. -/
theorem noCRLF_cons {b : Nat} {s : List Nat} (hb : b ≠ 13)
    (h : noCRLF s = true) : noCRLF (b :: s) = true := by
  cases s with
  | nil => rfl
  | cons c r =>
    simp only [noCRLF, Bool.and_eq_true, Bool.not_eq_true', Bool.and_eq_false_iff]
    exact ⟨Or.inl (by simpa using hb), h⟩

/-- A string without the byte 13 has no CRLF. -/
theorem noCRLF_of_no13 {s : List Nat} (h : ∀ b ∈ s, b ≠ 13) :
    noCRLF s = true := by
  induction s with
  | nil => rfl
  | cons b r ih =>
    exact noCRLF_cons (h b (List.mem_cons_self _ _))
      (ih fun x hx => h x (List.mem_cons_of_mem _ hx))

/-- Appending a final 13 cannot create a CRLF. -/
theorem noCRLF_append13 {s : List Nat} (h : noCRLF s = true) :
    noCRLF (s ++ [13]) = true := by
  induction s with
  | nil => rfl
  | cons b r ih =>
    have hr := ih (noCRLF_tail h)
    cases r with
    | nil =>
      simp only [List.cons_append, List.nil_append]
      simp [noCRLF]
    | cons c r' =>
      simp only [noCRLF, Bool.and_eq_true] at h
      simp only [List.cons_append]
      simp only [noCRLF, Bool.and_eq_true] at hr ⊢
      exact ⟨h.1, hr⟩

/-- A prefix of a CRLF-free string is CRLF-free. -/
theorem noCRLF_of_append {p q : List Nat} (h : noCRLF (p ++ q) = true) :
    noCRLF p = true := by
  induction p with
  | nil => rfl
  | cons b r ih =>
    cases r with
    | nil => rfl
    | cons c r' =>
      simp only [List.cons_append] at h
      simp only [noCRLF, Bool.and_eq_true] at h ⊢
      exact ⟨h.1, ih h.2⟩

/-- `get_line` finds the appended CRLF after a CRLF-free line. -/
theorem getLine_append {s : List Nat} (h : noCRLF s = true) (r : List Nat) :
    getLine (s ++ 13 :: 10 :: r) = .ok (s, r) := by
  induction s with
  | nil => simp [getLine]
  | cons b s' ih =>
    have hs' := noCRLF_tail h
    simp only [List.cons_append, getLine, List.append_eq]
    by_cases hb : b = 13
    · subst hb
      cases s' with
      | nil => simp [getLine]
      | cons c r' =>
        have hc : c ≠ 10 := by
          simp only [noCRLF, Bool.and_eq_true, Bool.not_eq_true',
            Bool.and_eq_false_iff] at h
          rcases h.1 with h1 | h1
          · simp at h1
          · simpa using h1
        rw [if_neg (by simp [hc]), ih hs']
        rfl
    · rw [if_neg (by simp [hb]), ih hs']
      rfl

/-- `get_line` reports `Incomplete` on a CRLF-free buffer. -/
theorem getLine_incomplete {d : List Nat} (h : noCRLF d = true) :
    getLine d = .error .incomplete := by
  induction d with
  | nil => rfl
  | cons b r ih =>
    simp only [getLine]
    cases r with
    | nil =>
      rw [if_neg (by simp)]
      rfl
    | cons c r' =>
      have hcr := noCRLF_tail h
      have hnot : ¬(b = 13 ∧ ((c :: r').head? = some 10)) := by
        simp only [noCRLF, Bool.and_eq_true, Bool.not_eq_true',
          Bool.and_eq_false_iff] at h
        rcases h.1 with h1 | h1
        · intro hx
          rw [hx.1] at h1
          simp at h1
        · intro hx
          simp only [List.head?] at hx
          have := hx.2
          simp only [Option.some.injEq] at this
          rw [this] at h1
          simp at h1
      rw [if_neg hnot, ih hcr]
      rfl

/-- Digits of `decBytes` are ASCII digits. -/
theorem decBytes_digits {n : Nat} : ∀ b ∈ decBytes n, 48 ≤ b ∧ b ≤ 57 := by
  intro b hb
  rw [decBytes_eq] at hb
  by_cases hn : n = 0
  · rw [if_pos hn] at hb
    simp at hb
    omega
  · rw [if_neg hn] at hb
    simp only [List.mem_reverse, List.mem_map] at hb
    obtain ⟨d, hd, rfl⟩ := hb
    have := Nat.digits_lt_base (by norm_num) hd
    omega

/-- `decBytes` has no CRLF. -/
theorem decBytes_noCRLF (n : Nat) : noCRLF (decBytes n) = true :=
  noCRLF_of_no13 fun b hb => by
    have := decBytes_digits b hb
    omega

/-- `decBytes` is never empty. -/
theorem decBytes_ne_nil (n : Nat) : decBytes n ≠ [] := by
  rw [decBytes_eq]
  by_cases hn : n = 0
  · simp [hn]
  · rw [if_neg hn]
    simp only [ne_eq, List.reverse_eq_nil_iff, List.map_eq_nil_iff]
    exact Nat.digits_ne_nil_iff_ne_zero.mpr hn

/-- The decimal fold reconstructs the digit expansion. -/
theorem foldl_decimal (l : List Nat) (hl : ∀ d ∈ l, d < 10) (a : Nat) :
    ((l.map (fun d => d + 48)).reverse).foldl
        (fun acc b => acc * 10 + (b - 48)) a =
      a * 10 ^ l.length + Nat.ofDigits 10 l := by
  induction l generalizing a with
  | nil => simp
  | cons d l' ih =>
    simp only [List.map_cons, List.reverse_cons, List.foldl_append,
      List.foldl_cons, List.foldl_nil]
    rw [ih (fun x hx => hl x (List.mem_cons_of_mem _ hx))]
    rw [Nat.ofDigits_cons]
    have hd : d + 48 - 48 = d := by omega
    rw [hd]
    simp only [List.length_cons, pow_succ]
    ring

/-- `str::parse::<u64>` inverts `write_decimal` for `u64` values. -/
theorem parseU64_decBytes {n : Nat} (h : n < 2 ^ 64) :
    parseU64 (decBytes n) = some n := by
  by_cases hn : n = 0
  · subst hn
    rfl
  · have hne := decBytes_ne_nil n
    have hds := decBytes_digits (n := n)
    have hhead : (decBytes n).head? ≠ some 43 := by
      cases hdb : decBytes n with
      | nil => exact absurd hdb hne
      | cons b r =>
        have := hds b (by rw [hdb]; exact List.mem_cons_self _ _)
        simp only [List.head?, ne_eq, Option.some.injEq]
        omega
    simp only [parseU64, if_neg hhead, if_neg (by simpa using hne)]
    have hall : (decBytes n).all isDigit = true := by
      rw [List.all_eq_true]
      intro b hb
      have := hds b hb
      simp only [isDigit, Bool.and_eq_true, decide_eq_true_eq]
      omega
    rw [if_pos hall]
    have hfold : (decBytes n).foldl (fun acc b => acc * 10 + (b - 48)) 0 = n := by
      rw [decBytes_eq, if_neg hn]
      rw [foldl_decimal _ (fun d hd => Nat.digits_lt_base (by norm_num) hd)]
      simp [Nat.ofDigits_digits]
    rw [hfold, if_pos h]

/-- `get_decimal` reads an appended decimal line. -/
theorem getDecimal_append {n : Nat} (h : n < 2 ^ 64) (r : List Nat) :
    getDecimal (decBytes n ++ 13 :: 10 :: r) = .ok (n, r) := by
  simp only [getDecimal, getLine_append (decBytes_noCRLF n) r, exc_bind_ok,
    parseU64_decBytes h]

/-!  ## Helper lemmas: the codec on encoded values  -/

/-- `Frame::check` accepts the bytes `write_value` produced for a
well-formed non-array frame, consuming exactly them — for any
continuation of the recursion (no recursion happens below an
encodable value). -/
theorem checkStep_encValue {v : Frame} {bs : List Nat}
    (hw : wfVal v = true) (he : encValue v = some bs)
    (chk : List Nat → Except FErr (List Nat)) (r : List Nat) :
    checkStep chk (bs ++ r) = .ok r := by
  cases v with
  | simple s =>
    simp only [wfVal, Bool.and_eq_true] at hw
    cases he
    simp only [List.cons_append, List.append_assoc, List.cons_append,
      List.nil_append]
    simp [checkStep, getU8, getLine_append hw.2 r]
  | error s =>
    simp only [wfVal, Bool.and_eq_true] at hw
    cases he
    simp only [List.cons_append, List.append_assoc, List.cons_append,
      List.nil_append]
    simp [checkStep, getU8, getLine_append hw.2 r]
  | integer n =>
    simp only [wfVal, decide_eq_true_eq] at hw
    cases he
    simp only [List.cons_append, List.append_assoc, List.cons_append,
      List.nil_append]
    simp [checkStep, getU8, getDecimal_append hw r]
  | bulk b =>
    simp only [wfVal, decide_eq_true_eq] at hw
    cases he
    have hmod : b.length % 2 ^ 64 = b.length := Nat.mod_eq_of_lt (by omega)
    have hm2 : (b.length + 2) % 2 ^ 64 = b.length + 2 := Nat.mod_eq_of_lt hw
    have hdrop : (b ++ 13 :: 10 :: r).drop (b.length + 2) = r := by
      rw [show b ++ 13 :: 10 :: r = (b ++ [13, 10]) ++ r by simp]
      rw [show b.length + 2 = (b ++ [13, 10]).length by simp]
      exact List.drop_left _ _
    have hskip : skip (b.length + 2) (b ++ 13 :: 10 :: r) = .ok r := by
      have hlen : ¬ (b ++ 13 :: 10 :: r).length < b.length + 2 := by
        simp
      rw [skip, if_neg hlen, hdrop]
    have hm2' : (b.length + 2) % 18446744073709551616 = b.length + 2 := hm2
    have hdec := getDecimal_append (show b.length < 2 ^ 64 by omega)
      (b ++ 13 :: 10 :: r)
    simp only [hmod, List.cons_append, List.append_assoc, List.cons_append,
      List.nil_append]
    simp [checkStep, getU8, hdec, hm2, hm2', hskip]
  | array xs => simp [wfVal] at hw
  | null =>
    cases he
    simp [checkStep, getU8, getLine, List.cons_append]

/-- `Frame::parse` decodes the bytes `write_value` produced for a
well-formed non-array frame back to the same frame, consuming exactly
them. -/
theorem parseStep_encValue {v : Frame} {bs : List Nat}
    (hw : wfVal v = true) (he : encValue v = some bs)
    (prs : List Nat → Except FErr (Frame × List Nat)) (r : List Nat) :
    parseStep prs (bs ++ r) = .ok (v, r) := by
  cases v with
  | simple s =>
    simp only [wfVal, Bool.and_eq_true] at hw
    cases he
    simp only [List.cons_append, List.append_assoc, List.cons_append,
      List.nil_append]
    simp [parseStep, getU8, getLine_append hw.2 r, hw.1]
  | error s =>
    simp only [wfVal, Bool.and_eq_true] at hw
    cases he
    simp only [List.cons_append, List.append_assoc, List.cons_append,
      List.nil_append]
    simp [parseStep, getU8, getLine_append hw.2 r, hw.1]
  | integer n =>
    simp only [wfVal, decide_eq_true_eq] at hw
    cases he
    simp only [List.cons_append, List.append_assoc, List.cons_append,
      List.nil_append]
    simp [parseStep, getU8, getDecimal_append hw r]
  | bulk b =>
    simp only [wfVal, decide_eq_true_eq] at hw
    cases he
    have hmod : b.length % 2 ^ 64 = b.length := Nat.mod_eq_of_lt (by omega)
    have hm2 : (b.length + 2) % 2 ^ 64 = b.length + 2 := Nat.mod_eq_of_lt hw
    have htake : (b ++ 13 :: 10 :: r).take b.length = b := by
      simp
    have hdrop : (b ++ 13 :: 10 :: r).drop (b.length + 2) = r := by
      rw [show b ++ 13 :: 10 :: r = (b ++ [13, 10]) ++ r by simp]
      rw [show b.length + 2 = (b ++ [13, 10]).length by simp]
      exact List.drop_left _ _
    have hskip : skip (b.length + 2) (b ++ 13 :: 10 :: r) = .ok r := by
      have hlen' : ¬ (b ++ 13 :: 10 :: r).length < b.length + 2 := by
        simp
      rw [skip, if_neg hlen', hdrop]
    have hm2' : (b.length + 2) % 18446744073709551616 = b.length + 2 := hm2
    have hlen : ¬ (b ++ 13 :: 10 :: r).length < b.length + 2 := by
      simp
    have hlen2 : ¬ b.length + (r.length + 1 + 1) < b.length + 2 := by
      omega
    have hlenb : ¬ (b ++ 13 :: 10 :: r).length < b.length := by
      simp
    have hlenb2 : ¬ b.length + (r.length + 1 + 1) < b.length := by
      omega
    have hdec := getDecimal_append (show b.length < 2 ^ 64 by omega)
      (b ++ 13 :: 10 :: r)
    simp only [hmod, List.cons_append, List.append_assoc, List.cons_append,
      List.nil_append]
    simp [parseStep, getU8, hdec, hm2, hm2', htake, hskip, hlen, hlen2,
      hlenb, hlenb2]
  | array xs => simp [wfVal] at hw
  | null =>
    cases he
    simp [parseStep, getU8, getLine, List.cons_append]

/-- A well-formed non-array frame is encodable, to nonempty bytes. -/
theorem encValue_isSome {v : Frame} (hw : wfVal v = true) :
    ∃ bs, encValue v = some bs ∧ bs ≠ [] := by
  cases v <;> simp_all [wfVal, encValue]

/-- The writer's element loop succeeds on well-formed values. -/
theorem encValues_isSome {xs : List Frame} (hw : ∀ x ∈ xs, wfVal x = true) :
    ∃ es, encValues xs = some es := by
  induction xs with
  | nil => exact ⟨[], rfl⟩
  | cons x xs' ih =>
    obtain ⟨es', hes'⟩ := ih (fun a ha => hw a (List.mem_cons_of_mem _ ha))
    obtain ⟨bs, hbs, _⟩ := encValue_isSome (hw x (List.mem_cons_self _ _))
    exact ⟨bs ++ es', by simp [encValues, hbs, hes']⟩

/-- A writer-encodable frame is encodable, to nonempty bytes. -/
theorem encFrame_isSome {f : Frame} (hw : wfFlat f = true) :
    ∃ bs, encFrame f = some bs ∧ bs ≠ [] := by
  cases f with
  | array xs =>
    simp only [wfFlat, Bool.and_eq_true, List.all_eq_true] at hw
    obtain ⟨es, hes⟩ := encValues_isSome hw.2
    refine ⟨42 :: (decBytes (xs.length % 2 ^ 64) ++ [13, 10] ++ es), ?_, ?_⟩
    · simp [encFrame, hes]
    · simp
  | simple s => exact encValue_isSome (show wfVal (.simple s) = true from hw)
  | error s => exact encValue_isSome (show wfVal (.error s) = true from hw)
  | integer n => exact encValue_isSome (show wfVal (.integer n) = true from hw)
  | bulk b => exact encValue_isSome (show wfVal (.bulk b) = true from hw)
  | null => exact encValue_isSome (show wfVal .null = true from hw)

/-- The `check` element loop accepts the writer's output for a list of
well-formed values. -/
theorem checkListStep_enc {xs : List Frame} {es : List Nat}
    (hw : ∀ x ∈ xs, wfVal x = true) (he : encValues xs = some es)
    (fuel : Nat) (r : List Nat) :
    checkListStep (checkFuel (fuel + 1)) xs.length (es ++ r) = .ok r := by
  induction xs generalizing es r with
  | nil =>
    cases he
    rfl
  | cons x xs' ih =>
    simp only [encValues] at he
    cases hbx : encValue x with
    | none => rw [hbx] at he; cases he
    | some bsx =>
      rw [hbx] at he
      cases hes' : encValues xs' with
      | none => rw [hes'] at he; cases he
      | some es' =>
        rw [hes'] at he
        cases he
        simp only [List.length_cons, checkListStep, List.append_assoc]
        rw [show checkFuel (fuel + 1) = checkStep (checkFuel fuel) from rfl]
        rw [checkStep_encValue (hw x (List.mem_cons_self _ _)) hbx]
        exact ih (fun a ha => hw a (List.mem_cons_of_mem _ ha)) hes' r

/-- The `parse` element loop decodes the writer's output back to the
same elements. -/
theorem parseListStep_enc {xs : List Frame} {es : List Nat}
    (hw : ∀ x ∈ xs, wfVal x = true) (he : encValues xs = some es)
    (fuel : Nat) (r : List Nat) :
    parseListStep (parseFuel (fuel + 1)) xs.length (es ++ r) = .ok (xs, r) := by
  induction xs generalizing es r with
  | nil =>
    cases he
    rfl
  | cons x xs' ih =>
    simp only [encValues] at he
    cases hbx : encValue x with
    | none => rw [hbx] at he; cases he
    | some bsx =>
      rw [hbx] at he
      cases hes' : encValues xs' with
      | none => rw [hes'] at he; cases he
      | some es' =>
        rw [hes'] at he
        cases he
        simp only [List.length_cons, parseListStep, List.append_assoc]
        rw [show parseFuel (fuel + 1) = parseStep (parseFuel fuel) from rfl]
        rw [parseStep_encValue (hw x (List.mem_cons_self _ _)) hbx]
        simp only [exc_bind_ok]
        have ihr := ih (fun a ha => hw a (List.mem_cons_of_mem _ ha)) hes' r
        rw [show parseListStep (parseStep (parseFuel fuel)) xs'.length (es' ++ r) =
          parseListStep (parseFuel (fuel + 1)) xs'.length (es' ++ r) from rfl, ihr]
        rfl

/-- `Frame::check` accepts the writer's output of a well-formed frame,
consuming exactly it, at any fuel of at least two. -/
theorem checkFuel_encFrame {f : Frame} {bs : List Nat}
    (hw : wfFlat f = true) (he : encFrame f = some bs)
    (fuel : Nat) (r : List Nat) :
    checkFuel (fuel + 2) (bs ++ r) = .ok r := by
  cases f with
  | array xs =>
    simp only [wfFlat, Bool.and_eq_true, List.all_eq_true,
      decide_eq_true_eq] at hw
    simp only [encFrame] at he
    cases hes : encValues xs with
    | none => rw [hes] at he; cases he
    | some es =>
      rw [hes] at he
      simp only [Option.map_some', Option.some.injEq] at he
      subst he
      have hmod : xs.length % 2 ^ 64 = xs.length := Nat.mod_eq_of_lt hw.1
      have hdec := getDecimal_append hw.1 (es ++ r)
      rw [show checkFuel (fuel + 2) = checkStep (checkFuel (fuel + 1)) from rfl]
      simp only [hmod, List.cons_append, List.append_assoc, List.cons_append,
        List.nil_append]
      simp [checkStep, getU8, hdec, checkListStep_enc hw.2 hes fuel r]
  | simple s =>
    rw [show checkFuel (fuel + 2) = checkStep (checkFuel (fuel + 1)) from rfl]
    exact checkStep_encValue (show wfVal (.simple s) = true from hw) he _ r
  | error s =>
    rw [show checkFuel (fuel + 2) = checkStep (checkFuel (fuel + 1)) from rfl]
    exact checkStep_encValue (show wfVal (.error s) = true from hw) he _ r
  | integer n =>
    rw [show checkFuel (fuel + 2) = checkStep (checkFuel (fuel + 1)) from rfl]
    exact checkStep_encValue (show wfVal (.integer n) = true from hw) he _ r
  | bulk b =>
    rw [show checkFuel (fuel + 2) = checkStep (checkFuel (fuel + 1)) from rfl]
    exact checkStep_encValue (show wfVal (.bulk b) = true from hw) he _ r
  | null =>
    rw [show checkFuel (fuel + 2) = checkStep (checkFuel (fuel + 1)) from rfl]
    exact checkStep_encValue (show wfVal .null = true from hw) he _ r

/-- `Frame::parse` decodes the writer's output of a well-formed frame
back to the same frame, consuming exactly it, at any fuel of at least
two. -/
theorem parseFuel_encFrame {f : Frame} {bs : List Nat}
    (hw : wfFlat f = true) (he : encFrame f = some bs)
    (fuel : Nat) (r : List Nat) :
    parseFuel (fuel + 2) (bs ++ r) = .ok (f, r) := by
  cases f with
  | array xs =>
    simp only [wfFlat, Bool.and_eq_true, List.all_eq_true,
      decide_eq_true_eq] at hw
    simp only [encFrame] at he
    cases hes : encValues xs with
    | none => rw [hes] at he; cases he
    | some es =>
      rw [hes] at he
      simp only [Option.map_some', Option.some.injEq] at he
      subst he
      have hmod : xs.length % 2 ^ 64 = xs.length := Nat.mod_eq_of_lt hw.1
      have hdec := getDecimal_append hw.1 (es ++ r)
      rw [show parseFuel (fuel + 2) = parseStep (parseFuel (fuel + 1)) from rfl]
      simp only [hmod, List.cons_append, List.append_assoc, List.cons_append,
        List.nil_append]
      simp [parseStep, getU8, hdec, parseListStep_enc hw.2 hes fuel r]
  | simple s =>
    rw [show parseFuel (fuel + 2) = parseStep (parseFuel (fuel + 1)) from rfl]
    exact parseStep_encValue (show wfVal (.simple s) = true from hw) he _ r
  | error s =>
    rw [show parseFuel (fuel + 2) = parseStep (parseFuel (fuel + 1)) from rfl]
    exact parseStep_encValue (show wfVal (.error s) = true from hw) he _ r
  | integer n =>
    rw [show parseFuel (fuel + 2) = parseStep (parseFuel (fuel + 1)) from rfl]
    exact parseStep_encValue (show wfVal (.integer n) = true from hw) he _ r
  | bulk b =>
    rw [show parseFuel (fuel + 2) = parseStep (parseFuel (fuel + 1)) from rfl]
    exact parseStep_encValue (show wfVal (.bulk b) = true from hw) he _ r
  | null =>
    rw [show parseFuel (fuel + 2) = parseStep (parseFuel (fuel + 1)) from rfl]
    exact parseStep_encValue (show wfVal .null = true from hw) he _ r

/-- `Frame.check` and `Frame.parse` on exactly the writer's output. -/
theorem check_parse_encFrame {f : Frame} {bs : List Nat}
    (hw : wfFlat f = true) (he : encFrame f = some bs) (hne : bs ≠ []) :
    Frame.check bs = .ok [] ∧ Frame.parse bs = .ok (f, []) := by
  obtain ⟨m, hm⟩ : ∃ m, bs.length = m + 1 := by
    cases bs with
    | nil => exact absurd rfl hne
    | cons b r => exact ⟨r.length, rfl⟩
  have h1 : Frame.check bs = checkFuel (m + 2) (bs ++ []) := by
    rw [List.append_nil, Frame.check, hm]
  have h2 : Frame.parse bs = parseFuel (m + 2) (bs ++ []) := by
    rw [List.append_nil, Frame.parse, hm]
  rw [h1, h2, checkFuel_encFrame hw he m [], parseFuel_encFrame hw he m []]
  exact ⟨rfl, rfl⟩

/-!  ## C2: the frame round trip  -/

/-- C2, counterexample.  The parser produces the nested array
`[[ ]]` from `*1\r\n*0\r\n`, but encoding it with the `Connection`
writer panics: `write_value` hits its `unreachable!()` arm on the inner
`Array` element (modelled as `none`), so "encoding f … succeeds (does
not panic)" fails for this parser-producible frame. -/
theorem write_frame_nested_array_panics :
    Frame.parse [42, 49, 13, 10, 42, 48, 13, 10] =
      .ok (.array [.array []], []) ∧
    encFrame (.array [.array []]) = none := by
  constructor <;> rfl

/-- C2, amended.  For every frame the writer can actually emit — a flat
array of parser-producible values, or one such value (nested `Array`
elements panic the writer) — encoding succeeds and parsing the encoded
bytes yields the same frame, consuming them exactly: the round trip
`parse(encode(f)) = f` holds on the writer's domain. -/
theorem frame_encode_roundtrip (f : Frame) (h : wfFlat f = true) :
    ∃ bs, encFrame f = some bs ∧ Frame.check bs = .ok [] ∧
      Frame.parse bs = .ok (f, []) := by
  obtain ⟨bs, hbs, hne⟩ := encFrame_isSome h
  obtain ⟨h1, h2⟩ := check_parse_encFrame h hbs hne
  exact ⟨bs, hbs, h1, h2⟩

/-- C2, witness: the round trip evaluated on
`Array [Bulk "k", Integer 3, Simple "OK", Null]`. -/
theorem frame_encode_roundtrip_witness :
    ∃ bs, encFrame (.array [.bulk [107], .integer 3, .simple [79, 75], .null]) =
        some bs ∧
      Frame.check bs = .ok [] ∧
      Frame.parse bs =
        .ok (.array [.bulk [107], .integer 3, .simple [79, 75], .null], []) :=
  frame_encode_roundtrip (.array [.bulk [107], .integer 3, .simple [79, 75], .null])
    (by decide)

/-!  ## Helper lemmas: `check` and `parse` move in lockstep  -/

/-- Wherever `Frame::check` succeeds, `Frame::parse` at the same fuel
either fails with the protocol error (`Other`), or hits the
slice-index panic in the `$` arm (`outOfBounds` — reachable exactly
when a declared bulk length makes `len + 2` wrap around `usize`), or
succeeds leaving the very same suffix — it never reports `Incomplete`,
never reaches the `unreachable!()` arm, and never consumes a different
amount.  Stated together with the corresponding fact for the
array-element loops. -/
theorem checkParse_agree (fuel : Nat) :
    (∀ d r, checkFuel fuel d = .ok r →
      parseFuel fuel d = .error .other ∨
        parseFuel fuel d = .error .outOfBounds ∨
        ∃ f, parseFuel fuel d = .ok (f, r)) ∧
    (∀ n d r, checkListStep (checkFuel fuel) n d = .ok r →
      parseListStep (parseFuel fuel) n d = .error .other ∨
        parseListStep (parseFuel fuel) n d = .error .outOfBounds ∨
        ∃ fs, parseListStep (parseFuel fuel) n d = .ok (fs, r)) := by
  induction fuel with
  | zero =>
    constructor
    · intro d r h
      cases h
    · intro n
      cases n with
      | zero =>
        intro d r h
        cases h
        exact Or.inr (Or.inr ⟨[], rfl⟩)
      | succ n =>
        intro d r h
        cases h

  | succ fuel ih =>
    have P : ∀ d r, checkFuel (fuel + 1) d = .ok r →
        parseFuel (fuel + 1) d = .error .other ∨
          parseFuel (fuel + 1) d = .error .outOfBounds ∨
          ∃ f, parseFuel (fuel + 1) d = .ok (f, r) := by
      intro d r h
      rw [show checkFuel (fuel + 1) = checkStep (checkFuel fuel) from rfl] at h
      rw [show parseFuel (fuel + 1) = parseStep (parseFuel fuel) from rfl]
      cases d with
      | nil => cases h
      | cons b d' =>
        by_cases hb43 : b = 43
        · subst hb43
          cases hgl : getLine d' with
          | error e =>
            simp [checkStep, getU8, hgl] at h
          | ok p =>
            obtain ⟨line, rest⟩ := p
            simp only [checkStep, getU8, exc_bind_ok, hgl, if_pos rfl] at h
            cases h
            by_cases hv : validUtf8 line = true
            · exact Or.inr (Or.inr ⟨.simple line, by
                simp [parseStep, getU8, hgl, hv]⟩)
            · exact Or.inl (by simp [parseStep, getU8, hgl, hv])
        · by_cases hb45 : b = 45
          · subst hb45
            cases hgl : getLine d' with
            | error e =>
              simp [checkStep, getU8, hgl] at h
            | ok p =>
              obtain ⟨line, rest⟩ := p
              simp only [checkStep, getU8, exc_bind_ok, hgl] at h
              norm_num at h
              cases h
              by_cases hv : validUtf8 line = true
              · exact Or.inr (Or.inr ⟨.error line, by
                  simp [parseStep, getU8, hgl, hv]⟩)
              · exact Or.inl (by simp [parseStep, getU8, hgl, hv])
          · by_cases hb58 : b = 58
            · subst hb58
              cases hgd : getDecimal d' with
              | error e =>
                simp [checkStep, getU8, hgd] at h
              | ok p =>
                obtain ⟨n2, rest⟩ := p
                simp only [checkStep, getU8, exc_bind_ok, hgd] at h
                norm_num at h
                cases h
                exact Or.inr (Or.inr ⟨.integer n2, by
                  simp [parseStep, getU8, hgd]⟩)
            · by_cases hb36 : b = 36
              · subst hb36
                cases hgd : getDecimal d' with
                | error e =>
                  simp [checkStep, getU8, hgd] at h
                | ok p =>
                  obtain ⟨n2, d2⟩ := p
                  simp only [checkStep, getU8, exc_bind_ok, hgd] at h
                  norm_num at h
                  rw [skip] at h
                  by_cases hlen : d2.length < (n2 + 2) % 18446744073709551616
                  · rw [if_pos hlen] at h
                    cases h
                  · rw [if_neg hlen] at h
                    cases h
                    by_cases hob : d2.length < n2
                    · refine Or.inr (Or.inl ?_)
                      simp [parseStep, getU8, hgd, hlen, hob]
                    · refine Or.inr (Or.inr ⟨.bulk (d2.take n2), ?_⟩)
                      simp [parseStep, getU8, hgd, hlen, hob, skip]
              · by_cases hb42 : b = 42
                · subst hb42
                  cases hgd : getDecimal d' with
                  | error e =>
                    simp [checkStep, getU8, hgd] at h
                  | ok p =>
                    obtain ⟨n2, d2⟩ := p
                    simp only [checkStep, getU8, exc_bind_ok, hgd] at h
                    norm_num at h
                    rcases ih.2 n2 d2 r h with hl | hlb | ⟨fs, hfs⟩
                    · exact Or.inl (by simp [parseStep, getU8, hgd, hl])
                    · exact Or.inr (Or.inl (by
                        simp [parseStep, getU8, hgd, hlb]))
                    · exact Or.inr (Or.inr ⟨.array fs, by
                        simp [parseStep, getU8, hgd, hfs]⟩)
                · by_cases hb95 : b = 95
                  · subst hb95
                    cases hgl : getLine d' with
                    | error e =>
                      simp [checkStep, getU8, hgl] at h
                    | ok p =>
                      obtain ⟨line, rest⟩ := p
                      simp only [checkStep, getU8, exc_bind_ok, hgl] at h
                      norm_num at h
                      cases h
                      by_cases hnil : line = []
                      · exact Or.inr (Or.inr ⟨.null, by
                          simp [parseStep, getU8, hgl, hnil]⟩)
                      · exact Or.inl (by simp [parseStep, getU8, hgl, hnil])
                  · exfalso
                    simp [checkStep, getU8, hb43, hb45, hb58, hb36, hb42,
                      hb95] at h
    refine ⟨P, ?_⟩
    intro n
    induction n with
    | zero =>
      intro d r h
      cases h
      exact Or.inr (Or.inr ⟨[], rfl⟩)
    | succ n ihn =>
      intro d r h
      rw [show checkListStep (checkFuel (fuel + 1)) (n + 1) d =
        (match checkFuel (fuel + 1) d with
          | .ok d' => checkListStep (checkFuel (fuel + 1)) n d'
          | .error e => .error e) from rfl] at h
      cases hc : checkFuel (fuel + 1) d with
      | error e =>
        rw [hc] at h
        cases h
      | ok d1 =>
        rw [hc] at h
        dsimp only at h
        rcases P d d1 hc with hperr | hpob | ⟨f, hf⟩
        · exact Or.inl (by simp [parseListStep, hperr])
        · exact Or.inr (Or.inl (by simp [parseListStep, hpob]))
        · rcases ihn d1 r h with hlerr | hlob | ⟨fs, hfs⟩
          · exact Or.inl (by simp [parseListStep, hf, hlerr])
          · exact Or.inr (Or.inl (by simp [parseListStep, hf, hlob]))
          · exact Or.inr (Or.inr ⟨f :: fs, by simp [parseListStep, hf, hfs]⟩)

/-!  ## C5: check/parse agreement  -/

/-- C5, counterexample.  On `+\xff\r\n` `Frame::check` succeeds
(consuming the whole buffer), but `Frame::parse` on the same bytes
returns an error — the `Simple` line is not UTF-8 — refuting
"`Frame::parse` … succeeds (produces a Frame value, never an
error)". -/
theorem check_ok_parse_error :
    Frame.check [43, 255, 13, 10] = .ok [] ∧
    Frame.parse [43, 255, 13, 10] = .error .other := by
  constructor <;> rfl

/-- C5, amended.  Wherever `Frame::check` succeeds, `Frame::parse` run on
the same bytes from the same position never reports `Incomplete`: it
either fails with a protocol error (non-UTF-8 `Simple`/`Error` text, or
a nonempty `Null` body — cases `check` does not inspect), or panics at
the `$` arm's slice index (`outOfBounds` — reachable exactly when a
declared bulk length makes `len + 2` wrap around `usize`, as on
`$18446744073709551614\r\n`, where `check` succeeds by skipping the
wrapped `0` bytes), or produces a frame leaving the cursor exactly
where `check` left it. -/
theorem check_parse_agreement (d rest : List Nat)
    (h : Frame.check d = .ok rest) :
    Frame.parse d = .error .other ∨
      Frame.parse d = .error .outOfBounds ∨
      ∃ f, Frame.parse d = .ok (f, rest) :=
  (checkParse_agree (d.length + 1)).1 d rest h

/-- C5, witness: on `+OK\r\nX` `check` succeeds leaving `X`, and the
agreement instance for these bytes resolves to a successful parse of
`Simple("OK")` leaving exactly `X`; and on `$18446744073709551614\r\n`,
whose declared length makes `len + 2` wrap to `0`, `check` succeeds
while `parse` hits the slice-index panic, realising the `outOfBounds`
disjunct. -/
theorem check_parse_agreement_witness :
    (Frame.check [43, 79, 75, 13, 10, 88] = .ok [88] ∧
      (Frame.parse [43, 79, 75, 13, 10, 88] = .error .other ∨
        Frame.parse [43, 79, 75, 13, 10, 88] = .error .outOfBounds ∨
        ∃ f, Frame.parse [43, 79, 75, 13, 10, 88] = .ok (f, [88]))) ∧
    Frame.check [36, 49, 56, 52, 52, 54, 55, 52, 52, 48, 55, 51, 55, 48,
      57, 53, 53, 49, 54, 49, 52, 13, 10] = .ok [] ∧
    Frame.parse [36, 49, 56, 52, 52, 54, 55, 52, 52, 48, 55, 51, 55, 48,
      57, 53, 53, 49, 54, 49, 52, 13, 10] = .error .outOfBounds :=
  ⟨⟨rfl, check_parse_agreement [43, 79, 75, 13, 10, 88] [88] rfl⟩,
    rfl, rfl⟩

/-!  ## Helper lemmas: strict prefixes of encoded frames  -/

/-- Dropping the nonempty tail of a split of `l ++ [x]` lands inside `l`. -/
theorem split_strict {l : List Nat} {x : Nat} {p q : List Nat}
    (hpq : p ++ q = l ++ [x]) (hq : q ≠ []) : ∃ q', p ++ q' = l := by
  rcases q.eq_nil_or_concat with rfl | ⟨q', y, rfl⟩
  · exact absurd rfl hq
  · rw [List.concat_eq_append, ← List.append_assoc] at hpq
    have h2 := List.append_inj' hpq rfl
    exact ⟨q', h2.1⟩

/-- A split of `A ++ B` either stops strictly inside `A` or covers `A`. -/
theorem prefix_append_cases :
    ∀ (A : List Nat) (p q B : List Nat), p ++ q = A ++ B →
      (∃ q1, q1 ≠ [] ∧ p ++ q1 = A) ∨
      (∃ p2, p = A ++ p2 ∧ p2 ++ q = B) := by
  intro A
  induction A with
  | nil =>
    intro p q B h
    exact Or.inr ⟨p, by simp, by simpa using h⟩
  | cons a A' ih =>
    intro p q B h
    cases p with
    | nil => exact Or.inl ⟨a :: A', by simp, rfl⟩
    | cons x p' =>
      simp only [List.cons_append, List.cons.injEq] at h
      obtain ⟨rfl, h2⟩ := h
      rcases ih p' q B h2 with ⟨q1, hne, he⟩ | ⟨p2, he, hb⟩
      · exact Or.inl ⟨q1, hne, by simp [he]⟩
      · exact Or.inr ⟨p2, by simp [he], hb⟩

/-- On a strict prefix of the writer's output for a well-formed
non-array frame, the body of `Frame::check` reports `Incomplete` —
whatever the recursive occurrence is. -/
theorem checkStep_val_prefix {v : Frame} {bs : List Nat}
    (hw : wfVal v = true) (he : encValue v = some bs) :
    ∀ p q, p ++ q = bs → q ≠ [] →
      ∀ chk, checkStep chk p = .error .incomplete := by
  cases v with
  | simple s =>
    simp only [wfVal, Bool.and_eq_true] at hw
    cases he
    intro p q hpq hq chk
    cases p with
    | nil => rfl
    | cons x p' =>
      simp only [List.cons_append, List.cons.injEq] at hpq
      obtain ⟨rfl, h2⟩ := hpq
      rw [show s ++ [13, 10] = (s ++ [13]) ++ [10] by simp] at h2
      obtain ⟨q', hq'⟩ := split_strict h2 hq
      have hnc : noCRLF p' = true := by
        have := noCRLF_append13 hw.2
        rw [← hq'] at this
        exact noCRLF_of_append this
      simp [checkStep, getU8, getLine_incomplete hnc]
  | error s =>
    simp only [wfVal, Bool.and_eq_true] at hw
    cases he
    intro p q hpq hq chk
    cases p with
    | nil => rfl
    | cons x p' =>
      simp only [List.cons_append, List.cons.injEq] at hpq
      obtain ⟨rfl, h2⟩ := hpq
      rw [show s ++ [13, 10] = (s ++ [13]) ++ [10] by simp] at h2
      obtain ⟨q', hq'⟩ := split_strict h2 hq
      have hnc : noCRLF p' = true := by
        have := noCRLF_append13 hw.2
        rw [← hq'] at this
        exact noCRLF_of_append this
      simp [checkStep, getU8, getLine_incomplete hnc]
  | integer n =>
    cases he
    intro p q hpq hq chk
    cases p with
    | nil => rfl
    | cons x p' =>
      simp only [List.cons_append, List.cons.injEq] at hpq
      obtain ⟨rfl, h2⟩ := hpq
      rw [show decBytes n ++ [13, 10] = (decBytes n ++ [13]) ++ [10] by simp]
        at h2
      obtain ⟨q', hq'⟩ := split_strict h2 hq
      have hnc : noCRLF p' = true := by
        have := noCRLF_append13 (decBytes_noCRLF n)
        rw [← hq'] at this
        exact noCRLF_of_append this
      simp [checkStep, getU8, getDecimal, getLine_incomplete hnc]
  | null =>
    cases he
    intro p q hpq hq chk
    cases p with
    | nil => rfl
    | cons x p' =>
      simp only [List.cons_append, List.cons.injEq] at hpq
      obtain ⟨rfl, h2⟩ := hpq
      rw [show ([13, 10] : List Nat) = [13] ++ [10] by simp] at h2
      obtain ⟨q', hq'⟩ := split_strict h2 hq
      have hnc : noCRLF p' = true := by
        have : noCRLF [13] = true := rfl
        rw [← hq'] at this
        exact noCRLF_of_append this
      simp [checkStep, getU8, getLine_incomplete hnc]
  | array xs => simp [wfVal] at hw
  | bulk b =>
    simp only [wfVal, decide_eq_true_eq] at hw
    cases he
    intro p q hpq hq chk
    have hmod : b.length % 2 ^ 64 = b.length := Nat.mod_eq_of_lt (by omega)
    rw [hmod] at hpq
    cases p with
    | nil => rfl
    | cons x p' =>
      simp only [List.cons_append, List.cons.injEq] at hpq
      obtain ⟨rfl, h2⟩ := hpq
      rw [show decBytes b.length ++ [13, 10] ++ b ++ [13, 10] =
        (decBytes b.length ++ [13, 10]) ++ (b ++ [13, 10]) by simp] at h2
      rcases prefix_append_cases _ p' q _ h2 with
        ⟨q1, hne, hq1⟩ | ⟨p2, hp2, hrest⟩
      · rw [show decBytes b.length ++ [13, 10] =
          (decBytes b.length ++ [13]) ++ [10] by simp] at hq1
        obtain ⟨q', hq'⟩ := split_strict hq1 hne
        have hnc : noCRLF p' = true := by
          have := noCRLF_append13 (decBytes_noCRLF b.length)
          rw [← hq'] at this
          exact noCRLF_of_append this
        simp [checkStep, getU8, getDecimal, getLine_incomplete hnc]
      · subst hp2
        have hlen : p2.length < b.length + 2 := by
          have : p2.length + q.length = b.length + 2 := by
            have := congrArg List.length hrest
            simpa using this
          have hq1 : 1 ≤ q.length := by
            cases q with
            | nil => exact absurd rfl hq
            | cons _ _ => simp
          omega
        have hgl : getLine (decBytes b.length ++ 13 :: 10 :: p2) =
            .ok (decBytes b.length, p2) :=
          getLine_append (decBytes_noCRLF b.length) p2
        have hdec : getDecimal (decBytes b.length ++ 13 :: 10 :: p2) =
            .ok (b.length, p2) := by
          simp [getDecimal, hgl, parseU64_decBytes (show b.length < 2 ^ 64 by omega)]
        have hm2 : (b.length + 2) % 2 ^ 64 = b.length + 2 := Nat.mod_eq_of_lt hw
        have hm2' : (b.length + 2) % 18446744073709551616 = b.length + 2 := hm2
        have hskip : skip (b.length + 2) p2 = .error .incomplete := by
          rw [skip, if_pos hlen]
        simp only [List.append_assoc, List.cons_append, List.nil_append]
        simp [checkStep, getU8, hdec, hm2, hm2', hskip]

/-- On a strict prefix of the writer's output for a list of well-formed
values, the `check` element loop reports `Incomplete`. -/
theorem checkListStep_prefix :
    ∀ (xs : List Frame) (es : List Nat),
      (∀ x ∈ xs, wfVal x = true) → encValues xs = some es →
      ∀ p q, p ++ q = es → q ≠ [] → ∀ fuel,
        checkListStep (checkFuel (fuel + 1)) xs.length p = .error .incomplete := by
  intro xs
  induction xs with
  | nil =>
    intro es _ he p q hpq hq fuel
    cases he
    exact absurd (List.append_eq_nil.mp hpq).2 hq
  | cons x xs' ih =>
    intro es hw he p q hpq hq fuel
    simp only [encValues] at he
    cases hbx : encValue x with
    | none => rw [hbx] at he; cases he
    | some bsx =>
      rw [hbx] at he
      cases hes' : encValues xs' with
      | none => rw [hes'] at he; cases he
      | some es' =>
        rw [hes'] at he
        cases he
        rcases prefix_append_cases bsx p q es' hpq with
          ⟨q1, hne, hq1⟩ | ⟨p2, hp2, hrest⟩
        · have hstep := checkStep_val_prefix (hw x (List.mem_cons_self _ _))
            hbx p q1 hq1 hne (checkFuel fuel)
          simp only [List.length_cons, checkListStep]
          rw [show checkFuel (fuel + 1) p = checkStep (checkFuel fuel) p
            from rfl, hstep]
        · subst hp2
          simp only [List.length_cons, checkListStep]
          rw [show checkFuel (fuel + 1) (bsx ++ p2) =
            checkStep (checkFuel fuel) (bsx ++ p2) from rfl]
          rw [checkStep_encValue (hw x (List.mem_cons_self _ _)) hbx]
          exact ih es' (fun a ha => hw a (List.mem_cons_of_mem _ ha)) hes'
            p2 q hrest hq fuel

/-- On a strict prefix of the writer's output for a well-formed frame,
`Frame::check` reports `Incomplete` at any fuel of at least two. -/
theorem checkFuel_prefix {f : Frame} {bs : List Nat}
    (hw : wfFlat f = true) (he : encFrame f = some bs) :
    ∀ p q, p ++ q = bs → q ≠ [] → ∀ fuel,
      checkFuel (fuel + 2) p = .error .incomplete := by
  cases f with
  | array xs =>
    simp only [wfFlat, Bool.and_eq_true, List.all_eq_true,
      decide_eq_true_eq] at hw
    simp only [encFrame] at he
    cases hes : encValues xs with
    | none => rw [hes] at he; cases he
    | some es =>
      rw [hes] at he
      simp only [Option.map_some', Option.some.injEq] at he
      subst he
      intro p q hpq hq fuel
      have hmod : xs.length % 2 ^ 64 = xs.length := Nat.mod_eq_of_lt hw.1
      rw [hmod] at hpq
      cases p with
      | nil => rfl
      | cons x p' =>
        simp only [List.cons_append, List.cons.injEq] at hpq
        obtain ⟨rfl, h2⟩ := hpq
        rw [show checkFuel (fuel + 2) = checkStep (checkFuel (fuel + 1))
          from rfl]
        rw [show decBytes xs.length ++ [13, 10] ++ es =
          (decBytes xs.length ++ [13, 10]) ++ es by simp] at h2
        rcases prefix_append_cases _ p' q _ h2 with
          ⟨q1, hne, hq1⟩ | ⟨p2, hp2, hrest⟩
        · rw [show decBytes xs.length ++ [13, 10] =
            (decBytes xs.length ++ [13]) ++ [10] by simp] at hq1
          obtain ⟨q', hq'⟩ := split_strict hq1 hne
          have hnc : noCRLF p' = true := by
            have := noCRLF_append13 (decBytes_noCRLF xs.length)
            rw [← hq'] at this
            exact noCRLF_of_append this
          simp [checkStep, getU8, getDecimal, getLine_incomplete hnc]
        · subst hp2
          have hgl : getLine (decBytes xs.length ++ 13 :: 10 :: p2) =
              .ok (decBytes xs.length, p2) :=
            getLine_append (decBytes_noCRLF xs.length) p2
          have hdec : getDecimal (decBytes xs.length ++ 13 :: 10 :: p2) =
              .ok (xs.length, p2) := by
            simp [getDecimal, hgl, parseU64_decBytes hw.1]
          have hloop := checkListStep_prefix xs es hw.2 hes p2 q hrest hq fuel
          simp only [List.append_assoc, List.cons_append, List.nil_append]
          simp [checkStep, getU8, hdec, hloop]
  | simple s =>
    intro p q hpq hq fuel
    exact checkStep_val_prefix (show wfVal (.simple s) = true from hw) he
      p q hpq hq _
  | error s =>
    intro p q hpq hq fuel
    exact checkStep_val_prefix (show wfVal (.error s) = true from hw) he
      p q hpq hq _
  | integer n =>
    intro p q hpq hq fuel
    exact checkStep_val_prefix (show wfVal (.integer n) = true from hw) he
      p q hpq hq _
  | bulk b =>
    intro p q hpq hq fuel
    exact checkStep_val_prefix (show wfVal (.bulk b) = true from hw) he
      p q hpq hq _
  | null =>
    intro p q hpq hq fuel
    exact checkStep_val_prefix (show wfVal .null = true from hw) he
      p q hpq hq _

/-- `Connection::parse_frame` quietly waits (`Ok(None)`) on every strict
prefix of an encoded well-formed frame. -/
theorem connParseFrame_prefix {f : Frame} {bs : List Nat}
    (hw : wfFlat f = true) (he : encFrame f = some bs)
    {p q : List Nat} (hpq : p ++ q = bs) (hq : q ≠ []) :
    connParseFrame p = .ok none := by
  have hchk : Frame.check p = .error .incomplete := by
    cases hp : p with
    | nil => rfl
    | cons x p' =>
      rw [Frame.check]
      rw [show (x :: p').length + 1 = p'.length + 2 by simp]
      exact checkFuel_prefix hw he (x :: p') q (hp ▸ hpq) hq p'.length
  simp [connParseFrame, hchk]

/-- `Connection::parse_frame` on exactly one encoded well-formed frame
produces it with an empty buffer left. -/
theorem connParseFrame_complete {f : Frame} {bs : List Nat}
    (hw : wfFlat f = true) (he : encFrame f = some bs) (hne : bs ≠ []) :
    connParseFrame bs = .ok (some (f, [])) := by
  obtain ⟨h1, h2⟩ := check_parse_encFrame hw he hne
  simp [connParseFrame, h1, h2]

/-- Feeding the tail of one encoded frame byte by byte on top of its
already-buffered beginning yields that frame and then proceeds like a
fresh decoder on the rest of the stream. -/
theorem feedBytes_through {f : Frame} {bs : List Nat}
    (hw : wfFlat f = true) (he : encFrame f = some bs) :
    ∀ (q p more : List Nat), p ++ q = bs → q ≠ [] →
      feedBytes p (q ++ more) =
        (feedBytes [] more).map (fun pr => (f :: pr.1, pr.2)) := by
  intro q
  induction q with
  | nil =>
    intro p more _ hq
    exact absurd rfl hq
  | cons hd q' ih =>
    intro p more hpq _
    by_cases hq' : q' = []
    · subst hq'
      have hfull : p ++ [hd] = bs := by simpa using hpq
      have hcomplete : connParseFrame (p ++ [hd]) = .ok (some (f, [])) := by
        rw [hfull]
        refine connParseFrame_complete hw he ?_
        rw [← hfull]
        simp
      simp only [List.cons_append, List.nil_append, feedBytes, hcomplete]
      cases hmore : feedBytes [] more with
      | ok pr =>
        simp only [List.append_eq, List.nil_append, hmore]
        rfl
      | error e =>
        simp only [List.append_eq, List.nil_append, hmore]
        rfl
    · have hstep : connParseFrame (p ++ [hd]) = .ok none := by
        refine connParseFrame_prefix hw he ?_ hq'
        rw [List.append_assoc]
        simpa using hpq
      simp only [List.cons_append, feedBytes, hstep]
      exact ih (p ++ [hd]) more (by simpa using hpq) hq'

/-- The incremental decoder recovers an encoded frame sequence exactly. -/
theorem feedBytes_encFrames :
    ∀ (fs : List Frame) (es : List Nat),
      (∀ f ∈ fs, wfFlat f = true) → encFrames fs = some es →
      feedBytes [] es = .ok (fs, []) := by
  intro fs
  induction fs with
  | nil =>
    intro es _ he
    cases he
    rfl
  | cons f fs' ih =>
    intro es hw he
    simp only [encFrames] at he
    cases hbf : encFrame f with
    | none => rw [hbf] at he; cases he
    | some bs =>
      rw [hbf] at he
      cases hes' : encFrames fs' with
      | none => rw [hes'] at he; cases he
      | some es' =>
        rw [hes'] at he
        cases he
        have hne : bs ≠ [] := by
          obtain ⟨bs2, hbs2, hne2⟩ :=
            encFrame_isSome (hw f (List.mem_cons_self _ _))
          rw [hbf] at hbs2
          cases hbs2
          exact hne2
        have := feedBytes_through (hw f (List.mem_cons_self _ _)) hbf bs [] es'
          (by simp) hne
        simp only [List.nil_append] at this
        rw [this, ih es' (fun a ha => hw a (List.mem_cons_of_mem _ ha)) hes']
        rfl

/-!  ## C7: incremental decode  -/

/-- C7.  For a byte sequence that is the writer's encoding of frames
`f₁ … fₙ` (each a frame the writer can emit: flat, with
parser-producible payloads), feeding the bytes one at a time through
`Connection::parse_frame` yields exactly `f₁ … fₙ` in order with the
buffer empty at the end and no error ever raised; and on every strict
prefix of a frame's encoding the decoder returns the quiet
`Ok(None)` — the protocol-error branch is never taken on any prefix
state. -/
theorem incremental_decode :
    (∀ (fs : List Frame) (es : List Nat),
      (∀ f ∈ fs, wfFlat f = true) → encFrames fs = some es →
      feedBytes [] es = .ok (fs, [])) ∧
    (∀ (f : Frame) (bs p q : List Nat),
      wfFlat f = true → encFrame f = some bs → p ++ q = bs → q ≠ [] →
      connParseFrame p = .ok none) := by
  constructor
  · exact feedBytes_encFrames
  · intro f bs p q hw he hpq hq
    exact connParseFrame_prefix hw he hpq hq

/-- C7, witness: the two-frame stream `+OK\r\n$2\r\nhi\r\n` decodes byte
by byte to `[Simple "OK", Bulk "hi"]` with an empty final buffer, and the
decoder quietly waits on the strict prefix `+O` of the first frame. -/
theorem incremental_decode_witness :
    feedBytes [] [43, 79, 75, 13, 10, 36, 50, 13, 10, 104, 105, 13, 10] =
      .ok ([.simple [79, 75], .bulk [104, 105]], []) ∧
    connParseFrame [43, 79] = .ok none := by
  constructor
  · exact incremental_decode.1 [.simple [79, 75], .bulk [104, 105]]
      [43, 79, 75, 13, 10, 36, 50, 13, 10, 104, 105, 13, 10]
      (by decide) rfl
  · exact incremental_decode.2 (.simple [79, 75]) [43, 79, 75, 13, 10]
      [43, 79] [75, 13, 10] (by decide) rfl rfl (by simp)

end MyRedis
